import Mathlib

/-!
Verification of the qr-trasmitter repository: a file is split into fixed-size
chunks on the sender side (`boardcaster.py`), each chunk is base64-encoded and
wrapped in a JSON envelope with fields "p" (part number), "t" (total parts),
"f" (file name) and "d" (payload), and the receiver (`receiver.py`) assembles
the chunks it manages to capture, detects stalls, writes a draft plus a
remediation manifest on failure, and reassembles the exact file on success.

This file is a shallow embedding of that code:
  * `chunksOf` embeds `get_file_chunks` (boardcaster.py);
  * `b64encodeList` / `b64decodeList` embed the `base64.b64encode` /
    `base64.b64decode` standard-library calls both scripts make, over byte
    lists (a byte is a `Nat` < 256);
  * `envelopeLoop` embeds the envelope-building loop of `generation_thread`;
  * `handleParsed` / `processResult` / `loopStep` embed the result-processing
    main loop of `main_scanner`, with `RxState` the assembler's mutable state;
  * `loadDraft` embeds the draft-reload loop, `draftBytes` the draft-writing
    loop of `save_draft_and_exit`, `restoredBytes` the final-file write;
  * `save_draft_and_exit` embeds the stall/interrupt save logic.

Python's parsed JSON values are modelled by `JTop` / `JAtom`.  The assembler
only ever subscripts the top level of a parsed payload with the string keys
"p", "t", "f", "d"; the contents of composite values nested inside a payload
are never read, so nested arrays and nested objects are modelled by the
content-free constructors `JAtom.arr` and `JAtom.nestedDict` (both are
unhashable in Python, which is all the code can observe about them).  JSON
numbers are modelled as integers; Python booleans compare as integers 0/1 in
numeric contexts, which `pyIntValue` reproduces.  Wall-clock times are
modelled as integers.
-/

/-- `CHUNK_SIZE_BYTES` from both scripts (they must agree). -/
def CHUNK_SIZE_BYTES : Nat := 2048

/-- `SCAN_TIMEOUT_SECONDS` from receiver.py: the stall timeout. -/
def SCAN_TIMEOUT_SECONDS : Int := 5

/-- The standard base64 alphabet, index i holding the character for sextet i. -/
def b64Alphabet : List Char :=
  "ABCDEFGHIJKLMNOPQRSTUVWXYZabcdefghijklmnopqrstuvwxyz0123456789+/".toList

/-- Character for a sextet value (0..63). -/
def b64Char (n : Nat) : Char := b64Alphabet.getD n 'A'

/-- Sextet value of a base64 character, `none` for a character outside the
alphabet (in particular for the padding character). -/
def b64CharIdx (ch : Char) : Option Nat := b64Alphabet.indexOf? ch

/-- `base64.b64encode` on a byte list, producing the character list of the
standard padded base64 text: bytes are taken three at a time, a final group of
one or two bytes is padded with one or two `=` characters. -/
def b64encodeList : List Nat → List Char
  | [] => []
  | [a] => [b64Char (a / 4), b64Char (a % 4 * 16), '=', '=']
  | [a, b] => [b64Char (a / 4), b64Char (a % 4 * 16 + b / 16), b64Char (b % 16 * 4), '=']
  | a :: b :: c :: rest =>
      b64Char (a / 4) :: b64Char (a % 4 * 16 + b / 16) :: b64Char (b % 16 * 4 + c / 64) ::
        b64Char (c % 64) :: b64encodeList rest

/-- `base64.b64decode` on the character list of a padded base64 text: four
characters decode to three bytes, a final `xy==` group to one byte and a
final `xyz=` group to two.  `none` models the `binascii.Error` exception on
input that is not well-formed padded base64 (Python is more lenient on some
malformed inputs, but the code only ever decodes strings produced by
`base64.b64encode`, on which the two functions agree). -/
def b64decodeList : List Char → Option (List Nat)
  | [] => some []
  | w :: x :: y :: z :: rest =>
      (match b64CharIdx w, b64CharIdx x with
      | some s1, some s2 =>
        if y = '=' then
          if z = '=' ∧ rest = [] then some [s1 * 4 + s2 / 16] else none
        else
          (match b64CharIdx y with
          | some s3 =>
            if z = '=' then
              if rest = [] then some [s1 * 4 + s2 / 16, s2 % 16 * 16 + s3 / 4] else none
            else
              (match b64CharIdx z, b64decodeList rest with
              | some s4, some tail =>
                  some ((s1 * 4 + s2 / 16) :: (s2 % 16 * 16 + s3 / 4) ::
                    (s3 % 4 * 64 + s4) :: tail)
              | _, _ => none)
          | none => none)
      | _, _ => none)
  | _ => none

/-- `base64.b64encode(chunk).decode("utf-8")`: the base64 text as a string. -/
def b64encodeStr (l : List Nat) : String := String.mk (b64encodeList l)

/-- `get_file_chunks` (boardcaster.py): read the file `CHUNK_SIZE_BYTES` at a
time and yield each non-empty chunk, stopping at the first empty read.  With
chunk size 0, `f.read(0)` returns an empty bytes object at once, so the
generator yields nothing; that is the `0, _ :: _` case. -/
def chunksOf (c : Nat) (l : List Nat) : List (List Nat) :=
  match c, l with
  | _, [] => []
  | 0, _ :: _ => []
  | c+1, b :: bs => ((b :: bs).take (c+1)) :: chunksOf (c+1) (bs.drop c)
termination_by l.length
decreasing_by
  simp only [List.length_cons, List.length_drop]
  omega

/-- `math.ceil(file_size / CHUNK_SIZE_BYTES)` for a positive chunk size `c`,
as computed by `generation_thread` (boardcaster.py). -/
def totalPartsFor (c : Nat) (fileSize : Nat) : Nat := (fileSize + c - 1) / c

/-- A JSON value nested inside a parsed payload, as far as the assembler can
observe it: it subscripts only the top level of the payload, so the contents
of nested composites are never read.  `arr` and `nestedDict` stand for nested
arrays and objects; both are unhashable in Python, which is the only property
of them the code exercises. -/
inductive JAtom where
  | null
  | bool (b : Bool)
  | int (n : Int)
  | str (s : String)
  | arr
  | nestedDict
deriving DecidableEq, Repr

/-- A successfully `json.loads`-parsed result item: either a top-level object
(a Python dict keyed by strings) or a top-level scalar/array. -/
inductive JTop where
  | atom (a : JAtom)
  | dict (fields : List (String × JAtom))
deriving DecidableEq, Repr

/-- One item taken off the result queue by the receiver's main loop, i.e. the
raw byte string a decoder worker produced, after the main loop's
`.decode("utf-8")` / `json.loads` steps:
  * `notUtf8` — the bytes are not valid UTF-8; `.decode` raises
    `UnicodeDecodeError`, which no handler in `main_scanner` catches;
  * `badJson` — UTF-8 text that `json.loads` rejects (`json.JSONDecodeError`);
  * `parsed v` — UTF-8 text parsing to the JSON value `v`. -/
inductive ResultItem where
  | notUtf8
  | badJson
  | parsed (v : JTop)
deriving DecidableEq, Repr

/-- `payload[key]` for a string `key`: `none` models both `KeyError` (a dict
without the key) and `TypeError` (subscripting a non-dict with a string). -/
def getItem (v : JTop) (key : String) : Option JAtom :=
  match v with
  | .atom _ => none
  | .dict fields => fields.lookup key

/-- Whether a value may be used as a dict key; Python raises `TypeError` on
`part_num not in chunks` when `part_num` is an unhashable list or dict. -/
def hashable : JAtom → Bool
  | .arr => false
  | .nestedDict => false
  | _ => true

/-- The integer a value denotes in Python's numeric comparisons, if any:
booleans compare as 0/1 (`bool` is a subtype of `int`), every other non-int
value is not comparable with / addable to an int. -/
def pyIntValue : JAtom → Option Int
  | .int n => some n
  | .bool b => some (if b then 1 else 0)
  | _ => none

/-- Python dict assignment `m[k] = v` on an insertion-ordered association
list with distinct keys: replace in place if the key is present, else append. -/
def dictSet (m : List (JAtom × JAtom)) (k v : JAtom) : List (JAtom × JAtom) :=
  if (m.lookup k).isSome then
    m.map (fun kv => if kv.1 = k then (k, v) else kv)
  else
    m ++ [(k, v)]

/-- The assembler's mutable state in `main_scanner` (receiver.py): the
`chunks` dict (insertion-ordered, keys distinct), `total_parts` and
`output_filename` (None until the first part binds them), and the
`last_part_found_time` timestamp. -/
structure RxState where
  chunks : List (JAtom × JAtom)
  total_parts : Option JAtom
  output_filename : Option JAtom
  last_part_found_time : Int
deriving DecidableEq, Repr

/-- The draft-reload loop of `main_scanner`: reads the draft `CHUNK_SIZE_BYTES`
at a time for parts `1..total_parts` (the fuel argument), breaks at the first
empty read, skips any all-zero chunk, and stores the base64 encoding of every
other chunk under its part number unless that part is already present.
`c` is the read size, `i` the current part number, `bytes` what is left of the
draft file. -/
def loadDraft (c : Nat) (chunks : List (JAtom × JAtom)) :
    Nat → Nat → List Nat → List (JAtom × JAtom)
  | 0, _, _ => chunks
  | k+1, i, bytes =>
    let chunk := bytes.take c
    if chunk = [] then chunks
    else
      let chunks2 :=
        if chunk.all (fun b => b == 0) then chunks
        else if (chunks.lookup (JAtom.int (Int.ofNat i))).isSome then chunks
        else chunks ++ [(JAtom.int (Int.ofNat i), JAtom.str (b64encodeStr chunk))]
      loadDraft c chunks2 k (i+1) (bytes.drop c)

/-- The two state updates ending the accept branch of the main loop:
`last_part_found_time = time.time()` and `chunks[part_num] = base64_data`. -/
def acceptPart (now : Int) (st : RxState) (p d : JAtom) : RxState :=
  { st with chunks := dictSet st.chunks p d, last_part_found_time := now }

/-- The body of the inner `try` of `main_scanner` on a `json.loads`-parsed
payload.  `draftOf f` is the content of the file named `DRAFT_<f>` when that
file exists (`f` being the value bound to `output_filename`).  Mirrors the
source statement by statement: extract `payload["p"]` and `payload["d"]`
(`KeyError`/`TypeError` is caught and ignores the item); test membership in
`chunks` (`TypeError` on an unhashable part number is caught likewise); on a
fresh part number, bind `total_parts` and then `output_filename` if still
unset — note each assignment survives a later exception of the same item —
load a pre-existing draft, and finally accept the part. -/
def handleParsed (draftOf : JAtom → Option (List Nat)) (now : Int) (st : RxState)
    (v : JTop) : RxState :=
  match getItem v "p" with
  | none => st
  | some p =>
    match getItem v "d" with
    | none => st
    | some d =>
      if hashable p = false then st
      else if (st.chunks.lookup p).isSome then st
      else
        match st.total_parts with
        | some _ => acceptPart now st p d
        | none =>
          match getItem v "t" with
          | none => st
          | some t =>
            let st1 : RxState := { st with total_parts := some t }
            match getItem v "f" with
            | none => st1
            | some f =>
              let st2 : RxState := { st1 with output_filename := some f }
              let st3 : RxState :=
                match draftOf f with
                | none => st2
                | some bytes =>
                  match pyIntValue t with
                  | none => st2
                  | some n =>
                    { st2 with
                      chunks := loadDraft CHUNK_SIZE_BYTES st2.chunks n.toNat 1 bytes }
              acceptPart now st3 p d

/-- Processing of one result-queue item by the main loop: a `badJson` item is
absorbed by the inner `except` clause, a `notUtf8` item raises an uncaught
`UnicodeDecodeError` (`none`, aborting the loop), a parsed item goes through
`handleParsed`. -/
def processResult (draftOf : JAtom → Option (List Nat)) (now : Int) (st : RxState) :
    ResultItem → Option RxState
  | .notUtf8 => none
  | .badJson => some st
  | .parsed v => some (handleParsed draftOf now st v)

/-- Result of the timeout test at the top of the main loop. -/
inductive StallResult where
  | fires
  | continues
  | crash
deriving DecidableEq, Repr

/-- The stall test at the top of each main-loop iteration (receiver.py):
when `total_parts` is bound, fire a `KeyboardInterrupt` if
`len(chunks) < total_parts and time.time() - last_part_found_time >
SCAN_TIMEOUT_SECONDS`.  When `total_parts` holds a non-numeric value the
`<` comparison raises an uncaught `TypeError` (`crash`). -/
def stallCheck (st : RxState) (now : Int) : StallResult :=
  match st.total_parts with
  | none => .continues
  | some v =>
    match pyIntValue v with
    | none => .crash
    | some t =>
      if (st.chunks.length : Int) < t ∧ now - st.last_part_found_time > SCAN_TIMEOUT_SECONDS
      then .fires else .continues

/-- The completion test of the main loop:
`total_parts is not None and len(chunks) == total_parts`.  Python `==`
between an int and a non-numeric value is `False`, never an error. -/
def completionHolds (st : RxState) : Bool :=
  match st.total_parts with
  | none => false
  | some v =>
    match pyIntValue v with
    | none => false
    | some t => (st.chunks.length : Int) == t

/-- Outcome of one iteration of the main loop. -/
inductive IterOutcome where
  | next (st : RxState)
  | stalled (st : RxState)
  | complete (st : RxState)
  | crashed (st : RxState)
deriving DecidableEq, Repr

/-- One iteration of the main loop of `main_scanner`: the stall test runs
first, without touching the queue; only then is the next result consumed
(`item = none` models `queue.Empty`, which skips the completion test);
reaching `len(chunks) == total_parts` breaks out of the loop to write the
final file. -/
def loopStep (draftOf : JAtom → Option (List Nat)) (now : Int) (st : RxState)
    (item : Option ResultItem) : IterOutcome :=
  match stallCheck st now with
  | .fires => .stalled st
  | .crash => .crashed st
  | .continues =>
    match item with
    | none => .next st
    | some it =>
      match processResult draftOf now st it with
      | none => .crashed st
      | some st2 => if completionHolds st2 then .complete st2 else .next st2

/-- Fold of `handleParsed` over a time-stamped stream of parsed payloads:
the assembler consuming one decoded result after another. -/
def runParsed (draftOf : JAtom → Option (List Nat)) :
    RxState → List (Int × JTop) → RxState
  | st, [] => st
  | st, (tm, v) :: rest => runParsed draftOf (handleParsed draftOf tm st v) rest

/-- Concatenation of the byte pieces `f i` for `i` over a list of part
numbers, `none` as soon as one piece fails: the shape of both file-writing
loops of receiver.py (an exception mid-loop aborts the write). -/
def concatPieces (f : Nat → Option (List Nat)) : List Nat → Option (List Nat)
  | [] => some []
  | i :: rest =>
    match f i, concatPieces f rest with
    | some a, some b => some (a ++ b)
    | _, _ => none

/-- `base64.b64decode(chunks[i])` on a stored payload value: only a string
decodes; a non-string raises `TypeError`. -/
def jsonStrB64decode : JAtom → Option (List Nat)
  | .str s => b64decodeList s.data
  | _ => none

/-- The bytes the draft-writing loop of `save_draft_and_exit` produces for
part `i` of `n`: a present part is base64-decoded and written, a missing
non-final part is written as `CHUNK_SIZE_BYTES` zero bytes (`c` here), and a
missing final part is skipped. -/
def draftPiece (c n : Nat) (chunks : List (JAtom × JAtom)) (i : Nat) : Option (List Nat) :=
  match chunks.lookup (JAtom.int (Int.ofNat i)) with
  | some v => jsonStrB64decode v
  | none => if i = n then some [] else some (List.replicate c 0)

/-- The full byte content of the draft file `save_draft_and_exit` writes:
parts `1..n` in ascending order through `draftPiece`; `none` models an
exception aborting the write. -/
def draftBytes (c n : Nat) (chunks : List (JAtom × JAtom)) : Option (List Nat) :=
  concatPieces (draftPiece c n chunks) (List.range' 1 n)

/-- The bytes written for part `i` of the final `RESTORED_` file: `chunks[i]`
is looked up (a missing key would raise `KeyError`) and base64-decoded. -/
def restoredPiece (chunks : List (JAtom × JAtom)) (i : Nat) : Option (List Nat) :=
  match chunks.lookup (JAtom.int (Int.ofNat i)) with
  | some v => jsonStrB64decode v
  | none => none

/-- The full byte content of the `RESTORED_` file written on completion:
`base64.b64decode(chunks[i])` for `i` in `1..n`, concatenated in order. -/
def restoredBytes (chunks : List (JAtom × JAtom)) (n : Nat) : Option (List Nat) :=
  concatPieces (restoredPiece chunks) (List.range' 1 n)

/-- `missing_parts = sorted(list(set(range(1, total_parts + 1)) -
set(chunks.keys())))`: filtering the ascending range `1..n` keeps exactly the
part numbers without a chunk, already in ascending order. -/
def missingParts (n : Nat) (chunks : List (JAtom × JAtom)) : List Nat :=
  (List.range' 1 n).filter (fun i => (chunks.lookup (JAtom.int (Int.ofNat i))).isNone)

/-- The remediation manifest `save_draft_and_exit` serializes into
`missing_parts.json`: `{"filename": ..., "total_parts": ..., "missing": ...}`. -/
structure Manifest where
  filename : JAtom
  total_parts : Int
  missing : List Nat
deriving DecidableEq, Repr

/-- What `save_draft_and_exit` persists:
  * `nothingReceived` — `total_parts` or `output_filename` still `None`;
    the function returns before writing anything;
  * `allPresentAnomaly` — every part present; the function reports the
    interrupted-after-completion anomaly and writes nothing;
  * `saved m draft` — the manifest `m` is written, then the draft file
    (`none` for the draft models a write/decode exception; the manifest is
    already on disk at that point);
  * `crashed` — `total_parts` holds a value `range` cannot take, so the
    function dies on an uncaught `TypeError`. -/
inductive SaveOutcome where
  | nothingReceived
  | allPresentAnomaly
  | saved (m : Manifest) (draft : Option (List Nat))
  | crashed
deriving DecidableEq, Repr

/-- `save_draft_and_exit` (receiver.py) as a function from the assembler's
final state to what it writes. -/
def save_draft_and_exit (chunks : List (JAtom × JAtom)) (total_parts : Option JAtom)
    (output_filename : Option JAtom) : SaveOutcome :=
  match total_parts, output_filename with
  | none, _ => .nothingReceived
  | some _, none => .nothingReceived
  | some tv, some f =>
    match pyIntValue tv with
    | none => .crashed
    | some n =>
      let missing := missingParts n.toNat chunks
      if missing = [] then .allPresentAnomaly
      else .saved ⟨f, n, missing⟩ (draftBytes CHUNK_SIZE_BYTES n.toNat chunks)

/-- The remediation skip test of `generation_thread` (boardcaster.py):
`if remediation_parts and part_number not in remediation_parts: continue`.
`remediation_parts` is `None` in full mode; an empty set is falsy in Python,
so it also disables skipping. -/
def skipsPart (remediation : Option (List Int)) (p : Int) : Bool :=
  match remediation with
  | none => false
  | some m => !m.isEmpty && !m.contains p

/-- The JSON envelope `generation_thread` builds for one chunk:
`{"p": part_number, "t": total_parts, "f": file_name, "d": base64_data}`. -/
def mkEnvelope (name : String) (total : Nat) (p : Nat) (chunk : List Nat) : JTop :=
  JTop.dict [("p", JAtom.int (Int.ofNat p)), ("t", JAtom.int (Int.ofNat total)),
    ("f", JAtom.str name), ("d", JAtom.str (b64encodeStr chunk))]

/-- The envelope-building loop of `generation_thread`: parts are numbered from
`p` upward by `enumerate(..., 1)`, a part failing the remediation filter is
skipped without rendering, every other part is rendered as its envelope. -/
def envelopeLoop (r : Option (List Int)) (name : String) (total : Nat) :
    Nat → List (List Nat) → List JTop
  | _, [] => []
  | p, chunk :: rest =>
    (if skipsPart r (Int.ofNat p) then [] else [mkEnvelope name total p chunk]) ++
      envelopeLoop r name total (p+1) rest

/-- Everything `generation_thread` renders for a file: its chunks, numbered
from 1, filtered by the remediation set, wrapped in envelopes carrying
`math.ceil`-computed total part count. -/
def generation_envelopes (r : Option (List Int)) (name : String) (c : Nat)
    (file : List Nat) : List JTop :=
  envelopeLoop r name (totalPartsFor c file.length) 1 (chunksOf c file)

/-- The part numbers `generation_thread` actually renders (those of the
envelopes it emits). -/
def renderedParts (r : Option (List Int)) (c : Nat) (file : List Nat) : List Nat :=
  (generation_envelopes r "" c file).filterMap (fun e =>
    match getItem e "p" with
    | some (.int p) => some p.toNat
    | _ => none)

/-- Decoding a base64 character produced from a sextet recovers the sextet. -/
theorem b64CharIdx_b64Char : ∀ n, n < 64 → b64CharIdx (b64Char n) = some n := by decide

/-- Characters of the base64 alphabet are never the padding character. -/
theorem b64Char_ne_pad : ∀ n, n < 64 → b64Char n ≠ '=' := by decide

/-- `base64.b64decode` inverts `base64.b64encode` on every byte list. -/
theorem b64_roundtrip :
    ∀ l : List Nat, (∀ b ∈ l, b < 256) → b64decodeList (b64encodeList l) = some l := by
  intro l
  induction l using b64encodeList.induct with
  | case1 =>
    intro _
    simp [b64encodeList, b64decodeList]
  | case2 a =>
    intro h
    have ha : a < 256 := h a (by simp)
    have e1 : b64CharIdx (b64Char (a / 4)) = some (a / 4) :=
      b64CharIdx_b64Char _ (by omega)
    have e2 : b64CharIdx (b64Char (a % 4 * 16)) = some (a % 4 * 16) :=
      b64CharIdx_b64Char _ (by omega)
    simp only [b64encodeList, b64decodeList, e1, e2, and_self, reduceIte,
      Option.some.injEq, List.cons.injEq, and_true]
    omega
  | case3 a b =>
    intro h
    have ha : a < 256 := h a (by simp)
    have hb : b < 256 := h b (by simp)
    have e1 : b64CharIdx (b64Char (a / 4)) = some (a / 4) :=
      b64CharIdx_b64Char _ (by omega)
    have e2 : b64CharIdx (b64Char (a % 4 * 16 + b / 16)) = some (a % 4 * 16 + b / 16) :=
      b64CharIdx_b64Char _ (by omega)
    have e3 : b64CharIdx (b64Char (b % 16 * 4)) = some (b % 16 * 4) :=
      b64CharIdx_b64Char _ (by omega)
    have ne3 : ¬(b64Char (b % 16 * 4) = '=') := b64Char_ne_pad _ (by omega)
    simp only [b64encodeList, b64decodeList, e1, e2, e3, ne3, if_false, reduceIte,
      Option.some.injEq, List.cons.injEq, and_true]
    omega
  | case4 a b c rest ih =>
    intro h
    have ha : a < 256 := h a (by simp)
    have hb : b < 256 := h b (by simp)
    have hc : c < 256 := h c (by simp)
    have hrest : ∀ x ∈ rest, x < 256 := by
      intro x hx
      exact h x (by simp [hx])
    have e1 : b64CharIdx (b64Char (a / 4)) = some (a / 4) :=
      b64CharIdx_b64Char _ (by omega)
    have e2 : b64CharIdx (b64Char (a % 4 * 16 + b / 16)) = some (a % 4 * 16 + b / 16) :=
      b64CharIdx_b64Char _ (by omega)
    have e3 : b64CharIdx (b64Char (b % 16 * 4 + c / 64)) = some (b % 16 * 4 + c / 64) :=
      b64CharIdx_b64Char _ (by omega)
    have e4 : b64CharIdx (b64Char (c % 64)) = some (c % 64) :=
      b64CharIdx_b64Char _ (by omega)
    have ne3 : ¬(b64Char (b % 16 * 4 + c / 64) = '=') := b64Char_ne_pad _ (by omega)
    have ne4 : ¬(b64Char (c % 64) = '=') := b64Char_ne_pad _ (by omega)
    simp only [b64encodeList, b64decodeList, e1, e2, e3, e4, ne3, ne4, if_false,
      reduceIte, ih hrest, Option.some.injEq, List.cons.injEq]
    refine ⟨by omega, by omega, by omega, trivial⟩

/-- For a positive chunk size, concatenating the chunks of a file in order
reproduces the file. -/
theorem chunksOf_flatten (c : Nat) (l : List Nat) (hc : 0 < c) :
    (chunksOf c l).flatten = l := by
  induction c, l using chunksOf.induct with
  | case1 c => simp [chunksOf]
  | case2 b bs => exact absurd hc (by omega)
  | case3 c b bs ih =>
    simp only [chunksOf, List.flatten_cons]
    rw [ih (by omega)]
    simp [List.take_succ_cons]

/-- The chunk generator yields nothing exactly on an empty file (positive
chunk size). -/
theorem chunksOf_eq_nil (c : Nat) (l : List Nat) (hc : 0 < c) :
    chunksOf c l = [] ↔ l = [] := by
  match c, l with
  | c, [] => simp [chunksOf]
  | 0, b :: bs => exact absurd hc (by omega)
  | c+1, b :: bs => simp [chunksOf]

/-- The number of chunks is the ceiling `totalPartsFor`. -/
theorem chunksOf_length (c : Nat) (l : List Nat) (hc : 0 < c) :
    (chunksOf c l).length = totalPartsFor c l.length := by
  induction c, l using chunksOf.induct with
  | case1 c =>
    simp only [chunksOf, List.length_nil, totalPartsFor]
    exact (Nat.div_eq_of_lt (by omega)).symm
  | case2 b bs => exact absurd hc (by omega)
  | case3 c b bs ih =>
    simp only [chunksOf, List.length_cons, totalPartsFor] at ih ⊢
    rw [ih (by omega)]
    simp only [List.length_drop]
    have hr : bs.length + 1 + (c + 1) - 1 = bs.length + (c + 1) := by omega
    rw [hr, Nat.add_div_right _ (by omega)]
    have hstep : (bs.length - c + (c + 1) - 1) / (c + 1) = bs.length / (c + 1) := by
      rcases le_or_lt c bs.length with h | h
      · have : bs.length - c + (c + 1) - 1 = bs.length := by omega
        rw [this]
      · have h1 : bs.length - c + (c + 1) - 1 = c := by omega
        rw [h1, Nat.div_eq_of_lt (by omega), Nat.div_eq_of_lt (by omega)]
    omega

/-- Every byte of every chunk is a byte of the file. -/
theorem chunksOf_mem (c : Nat) (l : List Nat) :
    ∀ ch ∈ chunksOf c l, ∀ b ∈ ch, b ∈ l := by
  induction c, l using chunksOf.induct with
  | case1 c => simp [chunksOf]
  | case2 b bs => simp [chunksOf]
  | case3 c b bs ih =>
    simp only [chunksOf, List.mem_cons]
    rintro ch (rfl | hch) x hx
    · exact List.mem_cons.mp (List.mem_of_mem_take hx)
    · have : x ∈ bs.drop c := ih ch hch x hx
      exact List.mem_cons.mp (List.mem_cons_of_mem b (List.mem_of_mem_drop this))

/-- Shape of an arbitrary chunk in the chunk list: every chunk is non-empty
and at most `c` long; every chunk other than the last is exactly `c` long;
the last chunk is `l.length % c` long, or `c` when the file size divides
evenly. -/
theorem chunksOf_decomp (c : Nat) (l : List Nat) (hc : 0 < c) :
    ∀ pre x post, chunksOf c l = pre ++ x :: post →
      (1 ≤ x.length ∧ x.length ≤ c) ∧
      (post ≠ [] → x.length = c) ∧
      (post = [] → x.length = (if l.length % c = 0 then c else l.length % c)) := by
  induction c, l using chunksOf.induct with
  | case1 c =>
    intro pre x post h
    rw [chunksOf] at h
    exact absurd h (by simp)
  | case2 b bs => exact absurd hc (by omega)
  | case3 c b bs ih =>
    intro pre x post h
    rw [chunksOf] at h
    match pre, h with
    | [], h =>
      rw [List.nil_append] at h
      injection h with h1 h2
      subst h1
      have hlen : ((b :: bs).take (c+1)).length = min (c+1) (bs.length + 1) := by
        simp [List.length_take]
        omega
      refine ⟨⟨by omega, by omega⟩, ?_, ?_⟩
      · intro hne
        rw [← h2] at hne
        have hdne : bs.drop c ≠ [] := by
          intro hnil
          rw [hnil, chunksOf] at hne
          exact hne rfl
        have hgt : c < bs.length := by
          rcases le_or_lt bs.length c with hle | hgt
          · exact absurd (List.drop_eq_nil_of_le hle) hdne
          · exact hgt
        omega
      · intro hpe
        rw [hpe] at h2
        have hdnil : bs.drop c = [] := (chunksOf_eq_nil (c+1) (bs.drop c) (by omega)).mp h2
        have hle : bs.length ≤ c := by
          have := congrArg List.length hdnil
          simp only [List.length_drop, List.length_nil] at this
          rcases le_or_lt bs.length c with hle | hgt
          · exact hle
          · omega
        simp only [List.length_cons]
        rcases Nat.lt_or_ge (bs.length + 1) (c + 1) with hlt | hge
        · rw [Nat.mod_eq_of_lt hlt, if_neg (by omega)]
          omega
        · have heq : bs.length + 1 = c + 1 := by omega
          rw [heq, Nat.mod_self, if_pos rfl]
          omega
    | p :: pre2, h =>
      rw [List.cons_append] at h
      injection h with h1 h2
      have ihres := ih (by omega) pre2 x post h2
      refine ⟨ihres.1, ihres.2.1, ?_⟩
      intro hpe
      have hres := ihres.2.2 hpe
      have hne : chunksOf (c+1) (bs.drop c) ≠ [] := by
        rw [h2]
        simp
      have hdne : bs.drop c ≠ [] := by
        intro hnil
        rw [hnil, chunksOf] at hne
        exact hne rfl
      have hgt : c < bs.length := by
        rcases le_or_lt bs.length c with hle | hgt
        · exact absurd (List.drop_eq_nil_of_le hle) hdne
        · exact hgt
      simp only [List.length_drop] at hres
      have hmodeq : (bs.length + 1) % (c+1) = (bs.length - c) % (c+1) := by
        rw [show bs.length + 1 = (bs.length - c) + (c+1) from by omega, Nat.add_mod_right]
      simp only [List.length_cons]
      rw [hmodeq]
      exact hres

/-- Reading the "p" field of a sender envelope. -/
theorem getItem_mkEnvelope_p (name : String) (total p : Nat) (chunk : List Nat) :
    getItem (mkEnvelope name total p chunk) "p" = some (JAtom.int (Int.ofNat p)) := rfl

/-- Reading the "t" field of a sender envelope. -/
theorem getItem_mkEnvelope_t (name : String) (total p : Nat) (chunk : List Nat) :
    getItem (mkEnvelope name total p chunk) "t" = some (JAtom.int (Int.ofNat total)) := rfl

/-- Reading the "f" field of a sender envelope. -/
theorem getItem_mkEnvelope_f (name : String) (total p : Nat) (chunk : List Nat) :
    getItem (mkEnvelope name total p chunk) "f" = some (JAtom.str name) := rfl

/-- Reading the "d" field of a sender envelope. -/
theorem getItem_mkEnvelope_d (name : String) (total p : Nat) (chunk : List Nat) :
    getItem (mkEnvelope name total p chunk) "d" = some (JAtom.str (b64encodeStr chunk)) := rfl

/-- The envelope loop renders, in ascending part order, exactly the parts
passing the remediation filter, each paired with its own chunk. -/
theorem envelopeLoop_eq (r : Option (List Int)) (name : String) (total : Nat) :
    ∀ (cs : List (List Nat)) (i : Nat),
      envelopeLoop r name total i cs =
        ((List.range' i cs.length).filter (fun p => !skipsPart r (Int.ofNat p))).map
          (fun p => mkEnvelope name total p (cs.getD (p - i) [])) := by
  intro cs
  induction cs with
  | nil => intro i; simp [envelopeLoop]
  | cons chunk rest ih =>
    intro i
    have hcongr :
        ((List.range' (i+1) rest.length).filter (fun p => !skipsPart r (Int.ofNat p))).map
            (fun p => mkEnvelope name total p ((chunk :: rest).getD (p - i) [])) =
        ((List.range' (i+1) rest.length).filter (fun p => !skipsPart r (Int.ofNat p))).map
            (fun p => mkEnvelope name total p (rest.getD (p - (i+1)) [])) := by
      apply List.map_congr_left
      intro p hp
      have hge : i + 1 ≤ p := (List.mem_range'_1.mp (List.mem_of_mem_filter hp)).1
      have : p - i = (p - (i+1)) + 1 := by omega
      rw [this, List.getD_cons_succ]
    simp only [envelopeLoop, List.length_cons, List.range'_succ, List.filter_cons]
    cases hskip : skipsPart r (Int.ofNat i) with
    | true =>
      simp only [hskip, Bool.not_true, Bool.false_eq_true, reduceIte, List.nil_append, ih (i+1)]
      exact hcongr.symm
    | false =>
      simp only [hskip, Bool.not_false, Bool.false_eq_true, reduceIte, List.map_cons, Nat.sub_self,
        List.getD_cons_zero, List.singleton_append, ih (i+1), List.cons.injEq, true_and]
      exact hcongr.symm

/-- Reindexing a list by the ascending range of its positions. -/
theorem range'_map_getD (cs : List (List Nat)) :
    ∀ i, (List.range' i cs.length).map (fun p => cs.getD (p - i) []) = cs := by
  induction cs with
  | nil => intro i; simp
  | cons chunk rest ih =>
    intro i
    simp only [List.length_cons, List.range'_succ, List.map_cons, Nat.sub_self,
      List.getD_cons_zero, List.cons.injEq, true_and]
    have hcongr :
        (List.range' (i+1) rest.length).map (fun p => (chunk :: rest).getD (p - i) []) =
        (List.range' (i+1) rest.length).map (fun p => rest.getD (p - (i+1)) []) := by
      apply List.map_congr_left
      intro p hp
      have hge : i + 1 ≤ p := (List.mem_range'_1.mp hp).1
      have : p - i = (p - (i+1)) + 1 := by omega
      rw [this, List.getD_cons_succ]
    rw [hcongr, ih (i+1)]

/-- In full (non-remediation) mode the sender emits one envelope per chunk,
in ascending part order 1, 2, ... -/
theorem generation_envelopes_full (name : String) (c : Nat) (file : List Nat) :
    generation_envelopes none name c file =
      (List.range' 1 (chunksOf c file).length).map
        (fun p => mkEnvelope name (totalPartsFor c file.length) p
          ((chunksOf c file).getD (p - 1) [])) := by
  rw [generation_envelopes, envelopeLoop_eq]
  congr 1
  apply List.filter_eq_self.mpr
  intro p _
  simp [skipsPart]

/-- Decoding the base64 payload of a chunk of a byte-valued file recovers the
chunk. -/
theorem chunk_payload_roundtrip (c : Nat) (file : List Nat)
    (hbytes : ∀ b ∈ file, b < 256) (ch : List Nat) (hch : ch ∈ chunksOf c file) :
    jsonStrB64decode (JAtom.str (b64encodeStr ch)) = some ch := by
  show b64decodeList (b64encodeStr ch).data = some ch
  have hdata : (b64encodeStr ch).data = b64encodeList ch := rfl
  rw [hdata]
  exact b64_roundtrip ch (fun b hb => hbytes b (chunksOf_mem c file ch hch b hb))

/-- C1: for every file and every positive chunk size, the sender splits the
file into `ceil(fileSize / chunkSize)` chunks numbered `1..totalParts` and
base64-encodes each chunk into its envelope's "d" payload; base64-decoding
the emitted payloads in part order recovers the chunks, and concatenating the
chunks `1..totalParts` in order reproduces the original file byte for byte. -/
theorem C1_roundtrip_law (c : Nat) (name : String) (file : List Nat) (hc : 0 < c)
    (hbytes : ∀ b ∈ file, b < 256) :
    (chunksOf c file).length = totalPartsFor c file.length ∧
    (generation_envelopes none name c file).map
        (fun e => (getItem e "d").bind jsonStrB64decode) = (chunksOf c file).map some ∧
    (chunksOf c file).flatten = file := by
  refine ⟨chunksOf_length c file hc, ?_, chunksOf_flatten c file hc⟩
  rw [generation_envelopes_full, List.map_map]
  have h1 : ∀ p ∈ List.range' 1 (chunksOf c file).length,
      ((fun e => (getItem e "d").bind jsonStrB64decode) ∘
        (fun p => mkEnvelope name (totalPartsFor c file.length) p
          ((chunksOf c file).getD (p - 1) []))) p
        = (some ∘ fun p => (chunksOf c file).getD (p - 1) []) p := by
    intro p hp
    have hlt : p - 1 < (chunksOf c file).length := by
      have := (List.mem_range'_1.mp hp)
      omega
    have hmem : (chunksOf c file).getD (p - 1) [] ∈ chunksOf c file := by
      rw [List.getD_eq_getElem (chunksOf c file) [] hlt]
      exact List.getElem_mem hlt
    simp only [Function.comp_apply, getItem_mkEnvelope_d, Option.bind_some]
    exact chunk_payload_roundtrip c file hbytes _ hmem
  rw [List.map_congr_left h1, ← List.map_map]
  rw [range'_map_getD (chunksOf c file) 1]

/-- Witness for C1 on a concrete three-byte file with chunk size two. -/
theorem C1_roundtrip_law_witness :
    ((0 : Nat) < 2 ∧ ∀ b ∈ ([104, 105, 33] : List Nat), b < 256) ∧
    ((chunksOf 2 [104, 105, 33]).length = totalPartsFor 2 ([104, 105, 33] : List Nat).length ∧
      (generation_envelopes none "hi.txt" 2 [104, 105, 33]).map
          (fun e => (getItem e "d").bind jsonStrB64decode)
        = (chunksOf 2 [104, 105, 33]).map some ∧
      (chunksOf 2 [104, 105, 33]).flatten = [104, 105, 33]) :=
  ⟨⟨by decide, by decide⟩,
    C1_roundtrip_law 2 "hi.txt" [104, 105, 33] (by decide) (by decide)⟩

/-- C8: the number of chunks equals `ceil(fileSize / chunkSize)`; every chunk
other than the last is exactly `chunkSize` long and the last is
`fileSize % chunkSize` long (`chunkSize` on even division); a 10000-byte file
with chunk size 2048 yields 5 parts with a 1808-byte last payload. -/
theorem C8_chunk_sizes (c : Nat) (file : List Nat) (hc : 0 < c) :
    (chunksOf c file).length = totalPartsFor c file.length ∧
    (∀ pre x post, chunksOf c file = pre ++ x :: post →
      (post ≠ [] → x.length = c) ∧
      (post = [] → x.length = (if file.length % c = 0 then c else file.length % c))) ∧
    (∀ f10 : List Nat, f10.length = 10000 →
      (chunksOf 2048 f10).length = 5 ∧
      (∀ pre x, chunksOf 2048 f10 = pre ++ [x] → x.length = 1808)) := by
  refine ⟨chunksOf_length c file hc, ?_, ?_⟩
  · intro pre x post h
    exact ⟨(chunksOf_decomp c file hc pre x post h).2.1,
      (chunksOf_decomp c file hc pre x post h).2.2⟩
  · intro f10 h10
    constructor
    · rw [chunksOf_length 2048 f10 (by omega), h10]
      decide
    · intro pre x h
      have hx := (chunksOf_decomp 2048 f10 (by omega) pre x [] h).2.2 rfl
      rw [h10] at hx
      exact hx.trans (by decide)

/-- Witness for C8 on a concrete four-byte file with chunk size three, and on
a concrete 10000-byte file for the scenario clause. -/
theorem C8_chunk_sizes_witness :
    ((0 : Nat) < 3) ∧
    (chunksOf 3 [7, 7, 7, 7]).length = totalPartsFor 3 ([7, 7, 7, 7] : List Nat).length ∧
    (chunksOf 2048 (List.replicate 10000 0)).length = 5 :=
  ⟨by decide, (C8_chunk_sizes 3 [7, 7, 7, 7] (by decide)).1,
    ((C8_chunk_sizes 3 [7, 7, 7, 7] (by decide)).2.2 (List.replicate 10000 0) (List.length_replicate 10000 0)).1⟩

/-- C2: the stall test fires exactly when the bound session has fewer than
`totalParts` chunks and more than `SCAN_TIMEOUT_SECONDS` have passed since
the last new part; it never fires once `len(chunks)` equals `totalParts`;
and it is a non-blocking check evaluated before the next result-queue item
is consumed — when it fires, the iteration ends in the stalled outcome with
the state untouched, whatever item may be pending. -/
theorem C2_stall_rule (st : RxState) (now : Int) (t : Int)
    (hb : st.total_parts = some (JAtom.int t)) :
    (stallCheck st now = .fires ↔
      ((st.chunks.length : Int) < t ∧
        now - st.last_part_found_time > SCAN_TIMEOUT_SECONDS)) ∧
    ((st.chunks.length : Int) = t → stallCheck st now ≠ .fires) ∧
    (∀ draftOf item, stallCheck st now = .fires →
      loopStep draftOf now st item = .stalled st) := by
  have hiff : stallCheck st now = .fires ↔
      ((st.chunks.length : Int) < t ∧
        now - st.last_part_found_time > SCAN_TIMEOUT_SECONDS) := by
    simp only [stallCheck, hb, pyIntValue]
    split_ifs with h
    · simp [h]
    · simp [h]
  refine ⟨hiff, ?_, ?_⟩
  · intro heq hfires
    have hlt := (hiff.mp hfires).1
    omega
  · intro draftOf item hfires
    simp only [loopStep, hfires]

/-- Witness for C2: an empty bound session three parts short, six seconds
after its last progress, stalls. -/
theorem C2_stall_rule_witness :
    stallCheck (RxState.mk [] (some (JAtom.int 3)) (some (JAtom.str "a")) 0) 6
      = StallResult.fires :=
  (C2_stall_rule (RxState.mk [] (some (JAtom.int 3)) (some (JAtom.str "a")) 0) 6 3
    rfl).1.mpr ⟨by decide, by decide⟩

/-- C10: an envelope whose part number is already a key of `chunks` leaves
the whole state unchanged — the stored payload keeps its first-written value
even when the new envelope carries a different payload, and
`last_part_found_time` is not updated — so a stream consisting only of
already-seen part numbers leaves the stall decision exactly as it was. -/
theorem C10_first_write_wins (draftOf : JAtom → Option (List Nat)) (st : RxState) :
    (∀ now v p, getItem v "p" = some p → (st.chunks.lookup p).isSome →
      handleParsed draftOf now st v = st) ∧
    (∀ ts : List (Int × JTop),
      (∀ tv ∈ ts, ∃ p, getItem tv.2 "p" = some p ∧ (st.chunks.lookup p).isSome) →
      runParsed draftOf st ts = st ∧
      ∀ now, stallCheck (runParsed draftOf st ts) now = stallCheck st now) := by
  have hsingle : ∀ now v p, getItem v "p" = some p → (st.chunks.lookup p).isSome →
      handleParsed draftOf now st v = st := by
    intro now v p hp hmem
    rcases hd : getItem v "d" with _ | d
    · simp [handleParsed, hp, hd]
    · simp [handleParsed, hp, hd, hmem, ite_self]
  refine ⟨hsingle, ?_⟩
  intro ts
  induction ts with
  | nil => exact fun _ => ⟨rfl, fun _ => rfl⟩
  | cons hd tl ih =>
    intro hall
    obtain ⟨tm, v⟩ := hd
    obtain ⟨p, hp, hmem⟩ := hall (tm, v) (List.mem_cons_self _ _)
    have h1 : handleParsed draftOf tm st v = st := hsingle tm v p hp hmem
    have htl := ih (fun tv htv => hall tv (List.mem_cons_of_mem _ htv))
    simp only [runParsed, h1]
    exact htl

/-- Witness for C10: a duplicate of part 1 with a different payload leaves a
state that already holds part 1 unchanged. -/
theorem C10_first_write_wins_witness :
    handleParsed (fun _ => none) 9
      (RxState.mk [(JAtom.int 1, JAtom.str "QQ==")] (some (JAtom.int 2))
        (some (JAtom.str "x")) 0)
      (JTop.dict [("p", JAtom.int 1), ("d", JAtom.str "ZZZZ")])
      = RxState.mk [(JAtom.int 1, JAtom.str "QQ==")] (some (JAtom.int 2))
        (some (JAtom.str "x")) 0 :=
  (C10_first_write_wins (fun _ => none)
    (RxState.mk [(JAtom.int 1, JAtom.str "QQ==")] (some (JAtom.int 2))
      (some (JAtom.str "x")) 0)).1 9
    (JTop.dict [("p", JAtom.int 1), ("d", JAtom.str "ZZZZ")]) (JAtom.int 1) rfl (by decide)

/-- Counterexample to C4 as stated: an item carrying only "p" and "d" —
missing the required "t" and "f" fields, hence not a well-formed envelope of
the protocol — is accepted by a bound session, changing both `chunks` and
`last_part_found_time`; and a result whose raw bytes are not UTF-8 aborts
the main loop (uncaught `UnicodeDecodeError`) rather than being ignored. -/
theorem C4_counterexample :
    handleParsed (fun _ => none) 7
      (RxState.mk [(JAtom.int 1, JAtom.str "QQ==")] (some (JAtom.int 3))
        (some (JAtom.str "f.bin")) 0)
      (JTop.dict [("p", JAtom.int 2), ("d", JAtom.str "QQ==")])
      ≠ RxState.mk [(JAtom.int 1, JAtom.str "QQ==")] (some (JAtom.int 3))
        (some (JAtom.str "f.bin")) 0 ∧
    processResult (fun _ => none) 7 (RxState.mk [] none none 0) ResultItem.notUtf8
      = none := by
  exact ⟨by decide, rfl⟩

/-- C4 (amended): faults the inner handler does catch are fully absorbed —
a JSON-parse failure, a missing "p" or "d" field, or an unhashable part
number leaves `chunks`, `total_parts`, `output_filename` and
`last_part_found_time` all unchanged; the only result item whose processing
aborts the loop is a non-UTF-8 byte string; but the protocol fields beyond
"p" and "d" are not required once the session is bound, and a first-position
item carrying "p", "d" and "t" while lacking "f" mutates `total_parts` even
though the item is rejected. -/
theorem C4_fault_absorption (draftOf : JAtom → Option (List Nat)) (now : Int)
    (st : RxState) :
    (processResult draftOf now st .badJson = some st) ∧
    (∀ v, getItem v "p" = none → handleParsed draftOf now st v = st) ∧
    (∀ v p, getItem v "p" = some p → getItem v "d" = none →
      handleParsed draftOf now st v = st) ∧
    (∀ v p, getItem v "p" = some p → hashable p = false →
      handleParsed draftOf now st v = st) ∧
    (∀ v p d t, st.total_parts = none → getItem v "p" = some p →
      getItem v "d" = some d → hashable p = true →
      (st.chunks.lookup p).isNone → getItem v "t" = some t → getItem v "f" = none →
      handleParsed draftOf now st v = { st with total_parts := some t }) ∧
    (∀ item : ResultItem, processResult draftOf now st item = none ↔ item = .notUtf8) := by
  refine ⟨rfl, ?_, ?_, ?_, ?_, ?_⟩
  · intro v hp
    simp [handleParsed, hp]
  · intro v p hp hd
    simp [handleParsed, hp, hd]
  · intro v p hp hh
    rcases hd : getItem v "d" with _ | d
    · simp [handleParsed, hp, hd]
    · simp [handleParsed, hp, hd, hh]
  · intro v p d t hnone hp hd hh hlook ht hf
    have hlk : st.chunks.lookup p = none := Option.isNone_iff_eq_none.mp hlook
    simp [handleParsed, hp, hd, hh, hlk, hnone, ht, hf]
  · intro item
    cases item <;> simp [processResult]

/-- Witness for C4 (amended): a top-level JSON string is ignored outright,
while a first "p"/"d"/"t"-only item mutates `total_parts` alone. -/
theorem C4_fault_absorption_witness :
    handleParsed (fun _ => none) 5 (RxState.mk [] none none 0)
      (JTop.atom (JAtom.str "hello")) = RxState.mk [] none none 0 ∧
    handleParsed (fun _ => none) 5 (RxState.mk [] none none 0)
      (JTop.dict [("p", JAtom.int 1), ("d", JAtom.str "QQ=="), ("t", JAtom.int 4)])
      = RxState.mk [] (some (JAtom.int 4)) none 0 :=
  ⟨(C4_fault_absorption (fun _ => none) 5 (RxState.mk [] none none 0)).2.1
      (JTop.atom (JAtom.str "hello")) rfl,
    (C4_fault_absorption (fun _ => none) 5 (RxState.mk [] none none 0)).2.2.2.2.1
      (JTop.dict [("p", JAtom.int 1), ("d", JAtom.str "QQ=="), ("t", JAtom.int 4)])
      (JAtom.int 1) (JAtom.str "QQ==") (JAtom.int 4) rfl rfl rfl rfl (by decide) rfl rfl⟩

/-- A successful lookup comes from an entry of the association list. -/
theorem lookup_mem {α β : Type} [BEq α] [LawfulBEq α] (l : List (α × β)) (k : α) (v : β)
    (h : l.lookup k = some v) : (k, v) ∈ l := by
  induction l with
  | nil => exact absurd h (by simp [List.lookup])
  | cons kv rest ih =>
    obtain ⟨a, b⟩ := kv
    by_cases hk : k == a
    · rw [List.lookup, hk] at h
      injection h with h2
      subst h2
      have : k = a := eq_of_beq hk
      subst this
      exact List.mem_cons_self _ _
    · rw [List.lookup, Bool.of_not_eq_true hk] at h
      exact List.mem_cons_of_mem _ (ih h)

/-- Decoding the base64 encoding of a byte list inside a stored payload. -/
theorem jsonStr_roundtrip (p : List Nat) (hp : ∀ b ∈ p, b < 256) :
    jsonStrB64decode (JAtom.str (b64encodeStr p)) = some p := by
  show b64decodeList (b64encodeStr p).data = some p
  exact b64_roundtrip p hp

/-- When every piece is produced, the concatenation is their flattening. -/
theorem concatPieces_eq_some (f : Nat → Option (List Nat)) (g : Nat → List Nat) :
    ∀ l : List Nat, (∀ i ∈ l, f i = some (g i)) →
      concatPieces f l = some (l.map g).flatten := by
  intro l
  induction l with
  | nil => intro _; rfl
  | cons i rest ih =>
    intro hall
    have hi : f i = some (g i) := hall i (List.mem_cons_self _ _)
    have hrest := ih (fun j hj => hall j (List.mem_cons_of_mem _ hj))
    simp only [concatPieces, hi, hrest, List.map_cons, List.flatten_cons]

/-- A concatenation of total pieces is total. -/
theorem concatPieces_isSome (f : Nat → Option (List Nat)) :
    ∀ l : List Nat, (∀ i ∈ l, (f i).isSome) → (concatPieces f l).isSome := by
  intro l
  induction l with
  | nil => intro _; rfl
  | cons i rest ih =>
    intro hall
    have hi := hall i (List.mem_cons_self _ _)
    have hrest := ih (fun j hj => hall j (List.mem_cons_of_mem _ hj))
    rw [concatPieces]
    rcases hfi : f i with _ | a
    · rw [hfi] at hi
      exact absurd hi (by simp)
    · rcases hrec : concatPieces f rest with _ | b
      · rw [hrec] at hrest
        exact absurd hrest (by simp)
      · rfl

/-- `missingParts` is listed in strictly ascending order. -/
theorem missingParts_sorted (n : Nat) (chunks : List (JAtom × JAtom)) :
    List.Pairwise (· < ·) (missingParts n chunks) :=
  List.Pairwise.filter _ (List.pairwise_lt_range' 1 n)

/-- Membership in `missingParts` is exactly: in range and not received. -/
theorem missingParts_mem (n : Nat) (chunks : List (JAtom × JAtom)) (i : Nat) :
    i ∈ missingParts n chunks ↔
      1 ≤ i ∧ i ≤ n ∧ (chunks.lookup (JAtom.int (Int.ofNat i))).isNone := by
  rw [missingParts, List.mem_filter, List.mem_range'_1]
  constructor
  · rintro ⟨⟨h1, h2⟩, h3⟩
    exact ⟨h1, by omega, by simpa using h3⟩
  · rintro ⟨h1, h2, h3⟩
    exact ⟨⟨h1, by omega⟩, by simpa using h3⟩

/-- C5: on stall or interrupt, nothing is written when no part was ever
accepted (`total_parts` still unbound); when every part of `1..totalParts`
is present the anomaly is reported and neither manifest nor draft is
written; otherwise the manifest `{filename, total_parts, missing}` is
persisted — `missing` being exactly the ascending enumeration of
`{1..totalParts}` minus the received keys — together with a draft file
(whose write succeeds whenever the stored payloads are decodable strings). -/
theorem C5_save_outcomes (chunks : List (JAtom × JAtom)) (fname : JAtom) (n : Int) :
    (∀ f, save_draft_and_exit chunks none f = .nothingReceived) ∧
    ((∀ i : Nat, 1 ≤ i → i ≤ n.toNat →
        (chunks.lookup (JAtom.int (Int.ofNat i))).isSome) →
      save_draft_and_exit chunks (some (JAtom.int n)) (some fname)
        = .allPresentAnomaly) ∧
    (missingParts n.toNat chunks ≠ [] →
      save_draft_and_exit chunks (some (JAtom.int n)) (some fname)
          = .saved ⟨fname, n, missingParts n.toNat chunks⟩
            (draftBytes CHUNK_SIZE_BYTES n.toNat chunks) ∧
        List.Pairwise (· < ·) (missingParts n.toNat chunks) ∧
        (∀ i : Nat, i ∈ missingParts n.toNat chunks ↔
          1 ≤ i ∧ i ≤ n.toNat ∧ (chunks.lookup (JAtom.int (Int.ofNat i))).isNone) ∧
        ((∀ kv ∈ chunks, ∃ s, kv.2 = JAtom.str s ∧ (b64decodeList s.data).isSome) →
          (draftBytes CHUNK_SIZE_BYTES n.toNat chunks).isSome)) := by
  refine ⟨fun f => rfl, ?_, ?_⟩
  · intro hall
    have hmiss : missingParts n.toNat chunks = [] := by
      rw [missingParts, List.filter_eq_nil_iff]
      intro i hi
      have hmem := List.mem_range'_1.mp hi
      have hsome := hall i hmem.1 (by omega)
      intro hcontra
      rw [Option.isNone_iff_eq_none] at hcontra
      rw [hcontra] at hsome
      exact absurd hsome (by simp)
    simp [save_draft_and_exit, pyIntValue, hmiss]
  · intro hne
    refine ⟨by simp [save_draft_and_exit, pyIntValue, hne], missingParts_sorted _ _,
      missingParts_mem _ _, ?_⟩
    intro hdec
    apply concatPieces_isSome
    intro i _
    rcases hl : chunks.lookup (JAtom.int (Int.ofNat i)) with _ | v
    · simp only [draftPiece, hl]
      split <;> rfl
    · obtain ⟨s, hs, hsome⟩ := hdec _ (lookup_mem chunks _ v hl)
      have hv : v = JAtom.str s := hs
      simp only [draftPiece, hl, hv, jsonStrB64decode]
      exact hsome

/-- Witness for C5: a session that received part 1 of 3 saves the manifest
with missing parts `[2, 3]` and a draft; one with nothing received saves
nothing. -/
theorem C5_save_outcomes_witness :
    save_draft_and_exit [(JAtom.int 1, JAtom.str "QQ==")] none (some (JAtom.str "y"))
        = .nothingReceived ∧
    save_draft_and_exit [(JAtom.int 1, JAtom.str "QQ==")] (some (JAtom.int 3))
        (some (JAtom.str "x"))
      = .saved ⟨JAtom.str "x", 3, missingParts 3 [(JAtom.int 1, JAtom.str "QQ==")]⟩
          (draftBytes CHUNK_SIZE_BYTES 3 [(JAtom.int 1, JAtom.str "QQ==")]) :=
  ⟨(C5_save_outcomes [(JAtom.int 1, JAtom.str "QQ==")] (JAtom.str "x") 3).1
      (some (JAtom.str "y")),
    ((C5_save_outcomes [(JAtom.int 1, JAtom.str "QQ==")] (JAtom.str "x") 3).2.2
      (by decide)).1⟩

/-- Sum of a constant function over a list. -/
theorem map_const_sum (l : List Nat) (c : Nat) : (l.map (fun _ => c)).sum = l.length * c := by
  induction l with
  | nil => simp
  | cons a rest ih =>
    simp only [List.map_cons, List.sum_cons, List.length_cons, ih, Nat.succ_mul]
    ring

set_option maxRecDepth 8192 in
/-- Counterexample to C6 as stated: for the 2049-byte session file
`replicate 2048 1 ++ [7]` (so `totalParts = 2`, `lastChunkLength = 1`), the
draft written after receiving only part 1 is 2048 bytes long, not
`(totalParts − 1) × chunkSize + lastChunkLength = 2049` — the missing final
part is never padded, so the claimed length formula fails whenever the final
part is absent. -/
theorem C6_counterexample :
    (chunksOf 2048 (List.replicate 2048 1 ++ [7])).length = 2 ∧
    (∀ pre x, chunksOf 2048 (List.replicate 2048 1 ++ [7]) = pre ++ [x] →
      x.length = 1) ∧
    draftBytes 2048 2
        [(JAtom.int 1, JAtom.str (b64encodeStr (List.replicate 2048 1)))]
      = some (List.replicate 2048 1) ∧
    (List.replicate 2048 1 : List Nat).length = 2048 ∧
    (2048 : Nat) ≠ (2 - 1) * 2048 + 1 := by
  refine ⟨?_, ?_, ?_, List.length_replicate 2048 1, by decide⟩
  · rw [chunksOf_length 2048 _ (by omega)]
    simp only [List.length_append, List.length_replicate, List.length_cons,
      List.length_nil, totalPartsFor]
  · intro pre x h
    have hx := (chunksOf_decomp 2048 _ (by omega) pre x [] h).2.2 rfl
    simp only [List.length_append, List.length_replicate, List.length_cons,
      List.length_nil] at hx
    exact hx.trans (by norm_num)
  · have h1 : jsonStrB64decode (JAtom.str (b64encodeStr (List.replicate 2048 1)))
        = some (List.replicate 2048 1) :=
      jsonStr_roundtrip _ (by
        intro b hb
        rw [List.eq_of_mem_replicate hb]
        omega)
    have hr : List.range' 1 2 = [1, 2] := rfl
    have l1 : List.lookup (JAtom.int (Int.ofNat 1))
        [(JAtom.int 1, JAtom.str (b64encodeStr (List.replicate 2048 1)))]
        = some (JAtom.str (b64encodeStr (List.replicate 2048 1))) := rfl
    have l2 : List.lookup (JAtom.int (Int.ofNat 2))
        [(JAtom.int 1, JAtom.str (b64encodeStr (List.replicate 2048 1)))]
        = none := rfl
    simp only [draftBytes, hr, concatPieces, draftPiece, l1, l2, h1, reduceIte]
    simp

/-- C6 (amended): the draft is written by walking parts `1..totalParts` in
ascending order, writing each present part's decoded payload, exactly
`chunkSize` zero bytes for each absent non-final part, and nothing for an
absent final part; consequently its length is
`(totalParts − 1) × chunkSize + lastChunkLength` when the final part is
present but only `(totalParts − 1) × chunkSize` when it is absent; and in
the scenario where parts `{1, 2, 4}` of 4 were received, part 3's region is
exactly `chunkSize` zero bytes. -/
theorem C6_draft_layout (c n L : Nat) (chunks : List (JAtom × JAtom))
    (payload : Nat → List Nat)
    (hc : 0 < c) (hn : 0 < n)
    (hlen : ∀ i, 1 ≤ i → i < n → (payload i).length = c)
    (hlast : (payload n).length = L)
    (hstored : ∀ i, 1 ≤ i → i ≤ n → ∀ v,
      chunks.lookup (JAtom.int (Int.ofNat i)) = some v →
      jsonStrB64decode v = some (payload i)) :
    (draftBytes c n chunks = some (((List.range' 1 n).map (fun i =>
        match chunks.lookup (JAtom.int (Int.ofNat i)) with
        | some _ => payload i
        | none => if i = n then [] else List.replicate c 0)).flatten)) ∧
    ((chunks.lookup (JAtom.int (Int.ofNat n))).isSome →
      ∀ d, draftBytes c n chunks = some d → d.length = (n - 1) * c + L) ∧
    ((chunks.lookup (JAtom.int (Int.ofNat n))).isNone →
      ∀ d, draftBytes c n chunks = some d → d.length = (n - 1) * c) ∧
    (∀ p1 p2 p4 : List Nat,
      (∀ b ∈ p1, b < 256) → (∀ b ∈ p2, b < 256) → (∀ b ∈ p4, b < 256) →
      draftBytes c 4 [(JAtom.int 1, JAtom.str (b64encodeStr p1)),
          (JAtom.int 2, JAtom.str (b64encodeStr p2)),
          (JAtom.int 4, JAtom.str (b64encodeStr p4))]
        = some (p1 ++ p2 ++ List.replicate c 0 ++ p4)) := by
  have hmain : draftBytes c n chunks = some (((List.range' 1 n).map (fun i =>
      match chunks.lookup (JAtom.int (Int.ofNat i)) with
      | some _ => payload i
      | none => if i = n then [] else List.replicate c 0)).flatten) := by
    apply concatPieces_eq_some
    intro i hi
    have hmem := List.mem_range'_1.mp hi
    rcases hl : chunks.lookup (JAtom.int (Int.ofNat i)) with _ | v
    · simp only [draftPiece, hl]
      by_cases hin : i = n <;> simp [hin]
    · have hdec := hstored i hmem.1 (by omega) v hl
      simp only [draftPiece, hl, hdec]
  have hflatlen : (((List.range' 1 n).map (fun i =>
      match chunks.lookup (JAtom.int (Int.ofNat i)) with
      | some _ => payload i
      | none => if i = n then [] else List.replicate c 0)).flatten).length
      = (n - 1) * c + (match chunks.lookup (JAtom.int (Int.ofNat n)) with
          | some _ => L
          | none => 0) := by
    have hsplit : List.range' 1 n = List.range' 1 (n - 1) ++ [n] := by
      have h1 : n = (n - 1) + 1 := by omega
      rw [h1, List.range'_concat]
      congr 2
      omega
    rw [hsplit, List.map_append, List.flatten_append, List.length_append]
    have hfirst : ((List.range' 1 (n - 1)).map (fun i =>
        match chunks.lookup (JAtom.int (Int.ofNat i)) with
        | some _ => payload i
        | none => if i = n then [] else List.replicate c 0)).flatten.length
        = (n - 1) * c := by
      rw [List.length_flatten, List.map_map]
      have hcongr : ∀ i ∈ List.range' 1 (n - 1),
          (List.length ∘ fun i =>
            match chunks.lookup (JAtom.int (Int.ofNat i)) with
            | some _ => payload i
            | none => if i = n then [] else List.replicate c 0) i
          = (fun _ => c) i := by
        intro i hi
        have hmem := List.mem_range'_1.mp hi
        simp only [Function.comp_apply]
        rcases hl : chunks.lookup (JAtom.int (Int.ofNat i)) with _ | v
        · rw [if_neg (by omega)]
          exact List.length_replicate c 0
        · exact hlen i hmem.1 (by omega)
      rw [List.map_congr_left hcongr, map_const_sum, List.length_range']
    have hlastpiece : ((List.map (fun i =>
        match chunks.lookup (JAtom.int (Int.ofNat i)) with
        | some _ => payload i
        | none => if i = n then [] else List.replicate c 0) [n]).flatten).length
        = (match chunks.lookup (JAtom.int (Int.ofNat n)) with
            | some _ => L
            | none => 0) := by
      simp only [List.map_cons, List.map_nil, List.flatten_cons, List.flatten_nil,
        List.append_nil]
      rcases hl : chunks.lookup (JAtom.int (Int.ofNat n)) with _ | v
      · simp
      · exact hlast
    rw [hfirst, hlastpiece]
  refine ⟨hmain, ?_, ?_, ?_⟩
  · intro hsome d hd
    rw [hmain] at hd
    injection hd with hd2
    obtain ⟨v, hv⟩ := Option.isSome_iff_exists.mp hsome
    rw [← hd2, hflatlen, hv]
  · intro hnone d hd
    rw [hmain] at hd
    injection hd with hd2
    have hv := Option.isNone_iff_eq_none.mp hnone
    rw [← hd2, hflatlen, hv]
    rfl
  · intro p1 p2 p4 h1 h2 h4
    have e1 := jsonStr_roundtrip p1 h1
    have e2 := jsonStr_roundtrip p2 h2
    have e4 := jsonStr_roundtrip p4 h4
    have hr : List.range' 1 4 = [1, 2, 3, 4] := rfl
    have l1 : List.lookup (JAtom.int (Int.ofNat 1))
        [(JAtom.int 1, JAtom.str (b64encodeStr p1)),
          (JAtom.int 2, JAtom.str (b64encodeStr p2)),
          (JAtom.int 4, JAtom.str (b64encodeStr p4))]
        = some (JAtom.str (b64encodeStr p1)) := rfl
    have l2 : List.lookup (JAtom.int (Int.ofNat 2))
        [(JAtom.int 1, JAtom.str (b64encodeStr p1)),
          (JAtom.int 2, JAtom.str (b64encodeStr p2)),
          (JAtom.int 4, JAtom.str (b64encodeStr p4))]
        = some (JAtom.str (b64encodeStr p2)) := rfl
    have l3 : List.lookup (JAtom.int (Int.ofNat 3))
        [(JAtom.int 1, JAtom.str (b64encodeStr p1)),
          (JAtom.int 2, JAtom.str (b64encodeStr p2)),
          (JAtom.int 4, JAtom.str (b64encodeStr p4))]
        = none := rfl
    have l4 : List.lookup (JAtom.int (Int.ofNat 4))
        [(JAtom.int 1, JAtom.str (b64encodeStr p1)),
          (JAtom.int 2, JAtom.str (b64encodeStr p2)),
          (JAtom.int 4, JAtom.str (b64encodeStr p4))]
        = some (JAtom.str (b64encodeStr p4)) := rfl
    simp only [draftBytes, hr, concatPieces, draftPiece, l1, l2, l3, l4,
      e1, e2, e4, reduceIte]
    simp [List.append_assoc]

/-- Witness for C6 (amended): a two-part session with chunk size 2 and last
chunk length 1 that received only part 1 yields the draft `[5, 6]`. -/
theorem C6_draft_layout_witness :
    draftBytes 2 2 [(JAtom.int 1, JAtom.str (b64encodeStr [5, 6]))] = some [5, 6] := by
  have h := (C6_draft_layout 2 2 1 [(JAtom.int 1, JAtom.str (b64encodeStr [5, 6]))]
    (fun i => if i = 1 then [5, 6] else [7]) (by omega) (by omega)
    (by
      intro i h1 h2
      have hi : i = 1 := by omega
      subst hi
      decide)
    (by decide)
    (by
      intro i h1 h2 v hv
      have hi : i = 1 ∨ i = 2 := by omega
      rcases hi with hi | hi
      · subst hi
        have h2v : some (JAtom.str (b64encodeStr [5, 6])) = some v := hv
        injection h2v with h3
        subst h3
        decide
      · subst hi
        have h2v : (none : Option JAtom) = some v := hv
        exact absurd h2v (by simp))).1
  rw [h]
  decide

/-- Looking a key up in concatenated association lists. -/
theorem lookup_append {α β : Type} [BEq α] (l₁ l₂ : List (α × β)) (k : α) :
    (l₁ ++ l₂).lookup k = ((l₁.lookup k).or (l₂.lookup k)) := by
  induction l₁ with
  | nil => simp [List.lookup]
  | cons kv rest ih =>
    obtain ⟨a, b⟩ := kv
    cases hk : k == a with
    | true => simp [List.lookup, hk]
    | false => simp [List.lookup, hk, ih]

/-- Looking up an integer part key in a list of part-keyed entries. -/
theorem lookup_map_int (g : Nat → JAtom) (l : List Nat) (q : Nat) :
    ((l.map (fun j => (JAtom.int (Int.ofNat j), g j))).lookup (JAtom.int (Int.ofNat q)))
      = if q ∈ l then some (g q) else none := by
  induction l with
  | nil => simp [List.lookup]
  | cons j rest ih =>
    by_cases hq : q = j
    · subst hq
      simp [List.lookup]
    · have hbeq : (JAtom.int (Int.ofNat q) == JAtom.int (Int.ofNat j)) = false := by
        simp only [beq_eq_false_iff_ne, ne_eq, JAtom.int.injEq]
        intro hcontra
        exact hq (Int.ofNat.inj hcontra)
      simp only [List.map_cons, List.lookup, hbeq, ih, List.mem_cons]
      by_cases hmem : q ∈ rest <;> simp [hmem, hq]

/-- The draft-reload loop unrolled: starting from a chunk map with no key in
the scanned part range, it appends, in ascending part order, one entry per
non-empty, non-all-zero `c`-byte stride of the draft, holding the stride's
base64 encoding.  The loop's break on an empty read is equivalent to the
stride-emptiness filter because every stride of an exhausted draft is empty. -/
theorem loadDraft_eq (c : Nat) (hc : 0 < c) :
    ∀ (k i : Nat) (bytes : List Nat) (chunks : List (JAtom × JAtom)),
      (∀ j, i ≤ j → chunks.lookup (JAtom.int (Int.ofNat j)) = none) →
      loadDraft c chunks k i bytes
        = chunks ++ ((List.range' i k).filter (fun j =>
            !((bytes.drop ((j - i) * c)).take c).isEmpty &&
            !((bytes.drop ((j - i) * c)).take c).all (fun b => b == 0))).map
          (fun j => (JAtom.int (Int.ofNat j),
            JAtom.str (b64encodeStr ((bytes.drop ((j - i) * c)).take c)))) := by
  intro k
  induction k with
  | zero =>
    intro i bytes chunks hfresh
    simp [loadDraft]
  | succ k ih =>
    intro i bytes chunks hfresh
    have hregion : ∀ j, i + 1 ≤ j →
        ((bytes.drop c).drop ((j - (i+1)) * c)).take c
          = (bytes.drop ((j - i) * c)).take c := by
      intro j hj
      rw [List.drop_drop]
      have harith : c + (j - (i+1)) * c = (j - i) * c := by
        rw [show j - i = (j - (i+1)) + 1 from by omega, Nat.succ_mul, Nat.add_comm]
      rw [harith]
    have hfiltcongr :
        (List.range' (i+1) k).filter (fun j =>
            !(((bytes.drop c).drop ((j - (i+1)) * c)).take c).isEmpty &&
            !(((bytes.drop c).drop ((j - (i+1)) * c)).take c).all (fun b => b == 0))
        = (List.range' (i+1) k).filter (fun j =>
            !((bytes.drop ((j - i) * c)).take c).isEmpty &&
            !((bytes.drop ((j - i) * c)).take c).all (fun b => b == 0)) := by
      apply List.filter_congr
      intro j hj
      have hge := (List.mem_range'_1.mp hj).1
      rw [hregion j hge]
    have hmapcongr : ∀ l : List Nat, (∀ j ∈ l, i + 1 ≤ j) →
        l.map (fun j => (JAtom.int (Int.ofNat j),
            JAtom.str (b64encodeStr (((bytes.drop c).drop ((j - (i+1)) * c)).take c))))
        = l.map (fun j => (JAtom.int (Int.ofNat j),
            JAtom.str (b64encodeStr ((bytes.drop ((j - i) * c)).take c)))) := by
      intro l hl
      apply List.map_congr_left
      intro j hj
      rw [hregion j (hl j hj)]
    by_cases hempty : bytes.take c = []
    · have hbytes : bytes = [] := by
        cases bytes with
        | nil => rfl
        | cons b bs =>
          exfalso
          rcases c with _ | c2
          · omega
          · simp [List.take_succ_cons] at hempty
      subst hbytes
      have hnone : (List.range' i (k+1)).filter (fun j =>
          !((([] : List Nat).drop ((j - i) * c)).take c).isEmpty &&
          !((([] : List Nat).drop ((j - i) * c)).take c).all (fun b => b == 0)) = [] := by
        apply List.filter_eq_nil_iff.mpr
        intro j _
        simp
      rw [hnone]
      simp only [loadDraft, List.take_nil, reduceIte, List.map_nil, List.append_nil]
    · by_cases hzero : (bytes.take c).all (fun b => b == 0) = true
      · have hrec := ih (i+1) (bytes.drop c) chunks (fun j hj => hfresh j (by omega))
        have hstep : loadDraft c chunks (k+1) i bytes
            = loadDraft c chunks k (i+1) (bytes.drop c) := by
          simp only [loadDraft, if_neg hempty, hzero, reduceIte]
        rw [hstep, hrec, List.range'_succ, List.filter_cons]
        have hcond : (!((bytes.drop ((i - i) * c)).take c).isEmpty &&
            !((bytes.drop ((i - i) * c)).take c).all (fun b => b == 0)) = false := by
          simp only [Nat.sub_self, Nat.zero_mul, List.drop_zero, hzero, Bool.not_true,
            Bool.and_false]
        rw [hcond]
        simp only [Bool.false_eq_true, reduceIte]
        congr 1
        rw [hfiltcongr]
        exact hmapcongr _ (fun j hj =>
          (List.mem_range'_1.mp (List.mem_of_mem_filter hj)).1)
      · have hlook : chunks.lookup (JAtom.int (Int.ofNat i)) = none :=
          hfresh i (Nat.le_refl i)
        have hfresh2 : ∀ j, i + 1 ≤ j →
            (chunks ++ [(JAtom.int (Int.ofNat i),
              JAtom.str (b64encodeStr (bytes.take c)))]).lookup
                (JAtom.int (Int.ofNat j)) = none := by
          intro j hj
          rw [lookup_append, hfresh j (by omega)]
          have hne : (JAtom.int (Int.ofNat j) == JAtom.int (Int.ofNat i)) = false := by
            simp only [beq_eq_false_iff_ne, ne_eq, JAtom.int.injEq]
            intro hcontra
            exact absurd (Int.ofNat.inj hcontra) (by omega)
          simp only [Option.none_or, List.lookup]
          rw [hne]
        have hrec := ih (i+1) (bytes.drop c)
          (chunks ++ [(JAtom.int (Int.ofNat i),
            JAtom.str (b64encodeStr (bytes.take c)))]) hfresh2
        have hzf : (bytes.take c).all (fun b => b == 0) = false :=
          Bool.of_not_eq_true hzero
        have hef : (bytes.take c).isEmpty = false := by
          cases hlist : bytes.take c with
          | nil => exact absurd hlist hempty
          | cons b bs => rfl
        have hstep : loadDraft c chunks (k+1) i bytes
            = loadDraft c (chunks ++ [(JAtom.int (Int.ofNat i),
                JAtom.str (b64encodeStr (bytes.take c)))]) k (i+1) (bytes.drop c) := by
          simp only [loadDraft, if_neg hempty, hzf, Bool.false_eq_true, reduceIte,
            hlook, Option.isSome_none]
        rw [hstep, hrec, List.range'_succ, List.filter_cons]
        have hcond : (!((bytes.drop ((i - i) * c)).take c).isEmpty &&
            !((bytes.drop ((i - i) * c)).take c).all (fun b => b == 0)) = true := by
          simp only [Nat.sub_self, Nat.zero_mul, List.drop_zero, hzf, hef, Bool.not_false,
            Bool.and_self]
        rw [hcond]
        simp only [reduceIte, List.map_cons, Nat.sub_self, Nat.zero_mul, List.drop_zero]
        rw [List.append_assoc, List.singleton_append]
        congr 2
        rw [hfiltcongr]
        exact hmapcongr _ (fun j hj =>
          (List.mem_range'_1.mp (List.mem_of_mem_filter hj)).1)

/-- C7: when a draft exists for the bound file name at first-envelope time,
the binding branch loads it by scanning `chunkSize` strides for parts
`1..totalParts`: the resulting map holds exactly the non-empty, non-all-zero
strides (an all-zero stride is treated as an absent part), each stored as
that part's base64 payload; the final, possibly short, region is taken into
the map exactly when it is present at its exact expected length, non-empty
and not all zero, and it is never taken when the draft ends at the final
part's offset. -/
theorem C7_draft_reload (c : Nat) (hc : 0 < c) (n : Nat) (bytes : List Nat) :
    (loadDraft c [] n 1 bytes
      = ((List.range' 1 n).filter (fun j =>
          !((bytes.drop ((j - 1) * c)).take c).isEmpty &&
          !((bytes.drop ((j - 1) * c)).take c).all (fun b => b == 0))).map
        (fun j => (JAtom.int (Int.ofNat j),
          JAtom.str (b64encodeStr ((bytes.drop ((j - 1) * c)).take c))))) ∧
    (∀ L, 1 ≤ n → bytes.length = (n - 1) * c + L → 0 < L → L ≤ c →
      ((bytes.drop ((n - 1) * c)).take c).length = L ∧
      (loadDraft c [] n 1 bytes).lookup (JAtom.int (Int.ofNat n))
        = (if ((bytes.drop ((n - 1) * c)).take c).all (fun b => b == 0) then none
            else some (JAtom.str (b64encodeStr ((bytes.drop ((n - 1) * c)).take c))))) ∧
    (1 ≤ n → bytes.length ≤ (n - 1) * c →
      (loadDraft c [] n 1 bytes).lookup (JAtom.int (Int.ofNat n)) = none) ∧
    (∀ draftOf now (tn p : Int) (d name : String) (st : RxState),
      st.chunks = [] → st.total_parts = none →
      draftOf (JAtom.str name) = some bytes →
      handleParsed draftOf now st (JTop.dict [("p", JAtom.int p), ("t", JAtom.int tn),
        ("f", JAtom.str name), ("d", JAtom.str d)])
      = RxState.mk
          (dictSet (loadDraft CHUNK_SIZE_BYTES [] tn.toNat 1 bytes)
            (JAtom.int p) (JAtom.str d))
          (some (JAtom.int tn)) (some (JAtom.str name)) now) := by
  have hstruct := loadDraft_eq c hc n 1 bytes [] (fun j _ => rfl)
  rw [List.nil_append] at hstruct
  refine ⟨hstruct, ?_, ?_, ?_⟩
  · intro L hn hlen hL hLc
    have hreg_len : ((bytes.drop ((n - 1) * c)).take c).length = L := by
      simp only [List.length_take, List.length_drop]
      omega
    refine ⟨hreg_len, ?_⟩
    have hie : ((bytes.drop ((n - 1) * c)).take c).isEmpty = false := by
      cases hl : (bytes.drop ((n - 1) * c)).take c with
      | nil =>
        rw [hl] at hreg_len
        simp at hreg_len
        omega
      | cons b bs => rfl
    rw [hstruct, lookup_map_int]
    by_cases hz : ((bytes.drop ((n - 1) * c)).take c).all (fun b => b == 0) = true
    · rw [if_pos hz, if_neg]
      intro hmem
      have := (List.mem_filter.mp hmem).2
      rw [hz] at this
      simp [hie] at this
    · rw [if_neg hz, if_pos]
      apply List.mem_filter.mpr
      refine ⟨List.mem_range'_1.mpr ⟨hn, by omega⟩, ?_⟩
      rw [hie, Bool.of_not_eq_true hz]
      rfl
  · intro hn hshort
    have hreg : (bytes.drop ((n - 1) * c)).take c = [] := by
      rw [List.drop_eq_nil_of_le (by omega), List.take_nil]
    rw [hstruct, lookup_map_int, if_neg]
    intro hmem
    have := (List.mem_filter.mp hmem).2
    rw [hreg] at this
    simp at this
  · intro draftOf now tn p d name st hch htp hdraft
    have g1 : getItem (JTop.dict [("p", JAtom.int p), ("t", JAtom.int tn),
        ("f", JAtom.str name), ("d", JAtom.str d)]) "p" = some (JAtom.int p) := rfl
    have g2 : getItem (JTop.dict [("p", JAtom.int p), ("t", JAtom.int tn),
        ("f", JAtom.str name), ("d", JAtom.str d)]) "d" = some (JAtom.str d) := rfl
    have g3 : getItem (JTop.dict [("p", JAtom.int p), ("t", JAtom.int tn),
        ("f", JAtom.str name), ("d", JAtom.str d)]) "t" = some (JAtom.int tn) := rfl
    have g4 : getItem (JTop.dict [("p", JAtom.int p), ("t", JAtom.int tn),
        ("f", JAtom.str name), ("d", JAtom.str d)]) "f" = some (JAtom.str name) := rfl
    obtain ⟨ch, tp, fo, lt⟩ := st
    have hch2 : ch = [] := hch
    have htp2 : tp = none := htp
    subst hch2
    subst htp2
    simp only [handleParsed, g1, g2, g3, g4, hdraft, hashable, pyIntValue,
      Bool.false_eq_true, reduceIte, List.lookup, Option.isSome_none, acceptPart, dictSet]
    rfl

/-- Witness for C7: with chunk size 2 and two parts, the draft `[0, 0, 9]`
(part 1 all zero, final region `[9]` of expected length 1) loads only
part 2. -/
theorem C7_draft_reload_witness :
    (loadDraft 2 [] 2 1 [0, 0, 9]).lookup (JAtom.int (Int.ofNat 2))
      = some (JAtom.str (b64encodeStr [9])) := by
  have h := (C7_draft_reload 2 (by omega) 2 [0, 0, 9]).2.1 1 (by omega) (by decide)
    (by omega) (by omega)
  rw [h.2]
  decide

/-- Assigning a key absent from the dict appends the pair. -/
theorem dictSet_absent (m : List (JAtom × JAtom)) (k v : JAtom)
    (h : m.lookup k = none) : dictSet m k v = m ++ [(k, v)] := by
  simp [dictSet, h]

/-- After `m[k] = v`, looking up `k` yields `v`. -/
theorem lookup_dictSet_self (m : List (JAtom × JAtom)) (k v : JAtom) :
    (dictSet m k v).lookup k = some v := by
  rw [dictSet]
  by_cases h : (m.lookup k).isSome
  · rw [if_pos h]
    induction m with
    | nil => exact absurd h (by simp [List.lookup])
    | cons kv rest ih =>
      obtain ⟨a, b⟩ := kv
      by_cases hk : k == a
      · have hak : a = k := (eq_of_beq hk).symm
        subst hak
        simp only [List.map_cons, if_pos (rfl : (a, b).1 = a)]
        simp [List.lookup]
      · have hkf : (k == a) = false := Bool.of_not_eq_true hk
        rw [List.lookup, hkf] at h
        simp only [List.map_cons]
        have hne : ¬((a, b).1 = k) := by
          intro hcontra
          simp only at hcontra
          subst hcontra
          simp at hkf
        rw [if_neg hne, List.lookup, hkf]
        exact ih h
  · have hnone : m.lookup k = none := Option.not_isSome_iff_eq_none.mp h
    rw [if_neg h, lookup_append, hnone, Option.none_or, List.lookup, beq_self_eq_true]

/-- An integer-keyed singleton holds nothing under a different integer key. -/
theorem lookup_single_int_ne (p q : Nat) (v : JAtom) (h : q ≠ p) :
    ([(JAtom.int (Int.ofNat p), v)] : List (JAtom × JAtom)).lookup
      (JAtom.int (Int.ofNat q)) = none := by
  have hne : (JAtom.int (Int.ofNat q) == JAtom.int (Int.ofNat p)) = false := by
    simp only [beq_eq_false_iff_ne, ne_eq, JAtom.int.injEq]
    intro hcontra
    exact h (Int.ofNat.inj hcontra)
  rw [List.lookup, hne]
  rfl

/-- A payload whose part number is already a key of `chunks` changes nothing
(the short-circuit at the top of the accept branch). -/
theorem handleParsed_seen (draftOf : JAtom → Option (List Nat)) (now : Int)
    (st : RxState) (v : JTop) (p : JAtom)
    (hp : getItem v "p" = some p) (hmem : (st.chunks.lookup p).isSome) :
    handleParsed draftOf now st v = st := by
  rcases hd : getItem v "d" with _ | d
  · simp [handleParsed, hp, hd]
  · simp [handleParsed, hp, hd, hmem, ite_self]

/-- Accepting a fresh sender envelope appends exactly one entry to `chunks`
(no draft exists, so the binding branch adds nothing else). -/
theorem handleParsed_mkEnvelope_fresh (now : Int) (st : RxState) (name : String)
    (T p : Nat) (chunk : List Nat)
    (hnew : st.chunks.lookup (JAtom.int (Int.ofNat p)) = none) :
    (handleParsed (fun _ => none) now st (mkEnvelope name T p chunk)).chunks
      = st.chunks ++ [(JAtom.int (Int.ofNat p), JAtom.str (b64encodeStr chunk))] := by
  have hisf : (st.chunks.lookup (JAtom.int (Int.ofNat p))).isSome = false := by
    rw [hnew]
    rfl
  cases htp : st.total_parts with
  | none =>
    simp only [handleParsed, getItem_mkEnvelope_p, getItem_mkEnvelope_d,
      getItem_mkEnvelope_t, getItem_mkEnvelope_f, hashable, Bool.false_eq_true,
      reduceIte, hisf, htp, acceptPart]
    exact dictSet_absent _ _ _ hnew
  | some tv =>
    simp only [handleParsed, getItem_mkEnvelope_p, getItem_mkEnvelope_d,
      hashable, Bool.false_eq_true, reduceIte, hisf, htp, acceptPart]
    exact dictSet_absent _ _ _ hnew

/-- Accepting a fresh payload with all four protocol fields present stores
the "d" value under the "p" key, whatever else the branch does. -/
theorem handleParsed_dict_lookup_self (draftOf : JAtom → Option (List Nat))
    (now : Int) (st : RxState) (l : List (String × JAtom)) (p d : JAtom)
    (hp : l.lookup "p" = some p) (hd : l.lookup "d" = some d)
    (ht : (l.lookup "t").isSome) (hf : (l.lookup "f").isSome)
    (hhash : hashable p = true) (hnew : st.chunks.lookup p = none) :
    ((handleParsed draftOf now st (JTop.dict l)).chunks.lookup p) = some d := by
  obtain ⟨t, ht2⟩ := Option.isSome_iff_exists.mp ht
  obtain ⟨f, hf2⟩ := Option.isSome_iff_exists.mp hf
  have hisf : (st.chunks.lookup p).isSome = false := by
    rw [hnew]
    rfl
  cases htp : st.total_parts with
  | none =>
    simp only [handleParsed, getItem, hp, hd, ht2, hf2, hhash, Bool.false_eq_true,
      reduceIte, hisf, htp, acceptPart]
    cases hdo : draftOf f with
    | none => exact lookup_dictSet_self _ _ _
    | some bytes =>
      cases hpi : pyIntValue t with
      | none => exact lookup_dictSet_self _ _ _
      | some tn => exact lookup_dictSet_self _ _ _
  | some tv =>
    simp only [handleParsed, getItem, hp, hd, hhash, Bool.false_eq_true,
      reduceIte, hisf, htp, acceptPart]
    exact lookup_dictSet_self _ _ _

/-- Feeding a stream of pairwise-distinct fresh sender envelopes appends
their entries to `chunks` in arrival order. -/
theorem runParsed_session_chunks (name : String) (T : Nat) (chunkOf : Nat → List Nat) :
    ∀ (ts : List (Int × Nat)) (st : RxState),
      (ts.map Prod.snd).Nodup →
      (∀ p ∈ ts.map Prod.snd, st.chunks.lookup (JAtom.int (Int.ofNat p)) = none) →
      (runParsed (fun _ => none) st (ts.map (fun tp =>
          (tp.1, mkEnvelope name T tp.2 (chunkOf tp.2))))).chunks
        = st.chunks ++ ts.map (fun tp =>
            (JAtom.int (Int.ofNat tp.2), JAtom.str (b64encodeStr (chunkOf tp.2)))) := by
  intro ts
  induction ts with
  | nil =>
    intro st _ _
    simp [runParsed]
  | cons tp rest ih =>
    intro st hnodup hfresh
    obtain ⟨tm, p⟩ := tp
    have hnew : st.chunks.lookup (JAtom.int (Int.ofNat p)) = none :=
      hfresh p (by simp)
    have hchunks1 := handleParsed_mkEnvelope_fresh tm st name T p (chunkOf p) hnew
    have hnodup2 : (rest.map Prod.snd).Nodup := by
      simp only [List.map_cons, List.nodup_cons] at hnodup
      exact hnodup.2
    have hpnotin : p ∉ rest.map Prod.snd := by
      simp only [List.map_cons, List.nodup_cons] at hnodup
      exact hnodup.1
    have hfresh2 : ∀ q ∈ rest.map Prod.snd,
        (handleParsed (fun _ => none) tm st
          (mkEnvelope name T p (chunkOf p))).chunks.lookup
            (JAtom.int (Int.ofNat q)) = none := by
      intro q hq
      rw [hchunks1, lookup_append, hfresh q (by simp [hq]), Option.none_or]
      exact lookup_single_int_ne p q _ (fun hqp => hpnotin (hqp ▸ hq))
    simp only [List.map_cons, runParsed]
    rw [ih _ hnodup2 hfresh2, hchunks1, List.append_assoc, List.singleton_append]

/-- A complete session fed to a fresh assembler in any order reassembles the
original file: the final `RESTORED_` write concatenates, in part order, the
decoded payloads, which are the file's chunks. -/
theorem restored_of_complete (c : Nat) (name : String) (file : List Nat) (t0 : Int)
    (hc : 0 < c) (hbytes : ∀ b ∈ file, b < 256) (ts : List (Int × Nat))
    (hperm : (ts.map Prod.snd).Perm (List.range' 1 (chunksOf c file).length)) :
    restoredBytes (runParsed (fun _ => none) (RxState.mk [] none none t0)
        (ts.map (fun tp => (tp.1, mkEnvelope name (totalPartsFor c file.length) tp.2
          ((chunksOf c file).getD (tp.2 - 1) []))))).chunks
      (chunksOf c file).length = some file := by
  have hnodup : (ts.map Prod.snd).Nodup :=
    hperm.nodup_iff.mpr (List.pairwise_lt_range' 1 _).nodup
  have hchunks := runParsed_session_chunks name (totalPartsFor c file.length)
    (fun p => (chunksOf c file).getD (p - 1) []) ts (RxState.mk [] none none t0)
    hnodup (fun p _ => rfl)
  rw [List.nil_append] at hchunks
  have hmapmap : ts.map (fun tp =>
      (JAtom.int (Int.ofNat tp.2),
        JAtom.str (b64encodeStr ((chunksOf c file).getD (tp.2 - 1) []))))
      = (ts.map Prod.snd).map (fun p =>
        (JAtom.int (Int.ofNat p),
          JAtom.str (b64encodeStr ((chunksOf c file).getD (p - 1) [])))) := by
    rw [List.map_map]
    rfl
  rw [restoredBytes]
  have hpieces : ∀ i ∈ List.range' 1 (chunksOf c file).length,
      restoredPiece (runParsed (fun _ => none) (RxState.mk [] none none t0)
        (ts.map (fun tp => (tp.1, mkEnvelope name (totalPartsFor c file.length) tp.2
          ((chunksOf c file).getD (tp.2 - 1) []))))).chunks i
      = some ((fun p => (chunksOf c file).getD (p - 1) []) i) := by
    intro i hi
    have hmemparts : i ∈ ts.map Prod.snd := hperm.mem_iff.mpr hi
    have hlt : i - 1 < (chunksOf c file).length := by
      have := (List.mem_range'_1.mp hi)
      omega
    have hmemchunk : (chunksOf c file).getD (i - 1) [] ∈ chunksOf c file := by
      rw [List.getD_eq_getElem (chunksOf c file) [] hlt]
      exact List.getElem_mem hlt
    rw [restoredPiece, hchunks, hmapmap, lookup_map_int, if_pos hmemparts]
    exact chunk_payload_roundtrip c file hbytes _ hmemchunk
  rw [concatPieces_eq_some _ _ _ hpieces, range'_map_getD (chunksOf c file) 1,
    chunksOf_flatten c file hc]

/-- C3: the assembler is idempotent under duplicate envelopes — feeding the
same four-field payload twice (at any two times) leaves exactly the state
produced by feeding it once — and insensitive to delivery order: feeding a
complete session's envelope set in any order, with any timestamps, to a
fresh assembler yields the same final reassembled file, namely the original
file itself. -/
theorem C3_assembler_insensitive :
    (∀ (draftOf : JAtom → Option (List Nat)) (now1 now2 : Int) (st : RxState)
        (l : List (String × JAtom)),
      (l.lookup "p").isSome → (l.lookup "d").isSome →
      (l.lookup "t").isSome → (l.lookup "f").isSome →
      handleParsed draftOf now2 (handleParsed draftOf now1 st (JTop.dict l))
          (JTop.dict l)
        = handleParsed draftOf now1 st (JTop.dict l)) ∧
    (∀ (c : Nat) (name : String) (file : List Nat) (t0 t1 : Int)
        (ts1 ts2 : List (Int × Nat)),
      0 < c → (∀ b ∈ file, b < 256) →
      (ts1.map Prod.snd).Perm (List.range' 1 (chunksOf c file).length) →
      (ts2.map Prod.snd).Perm (List.range' 1 (chunksOf c file).length) →
      restoredBytes (runParsed (fun _ => none) (RxState.mk [] none none t0)
          (ts1.map (fun tp => (tp.1, mkEnvelope name (totalPartsFor c file.length)
            tp.2 ((chunksOf c file).getD (tp.2 - 1) []))))).chunks
          (chunksOf c file).length
        = restoredBytes (runParsed (fun _ => none) (RxState.mk [] none none t1)
            (ts2.map (fun tp => (tp.1, mkEnvelope name (totalPartsFor c file.length)
              tp.2 ((chunksOf c file).getD (tp.2 - 1) []))))).chunks
            (chunksOf c file).length ∧
      restoredBytes (runParsed (fun _ => none) (RxState.mk [] none none t0)
          (ts1.map (fun tp => (tp.1, mkEnvelope name (totalPartsFor c file.length)
            tp.2 ((chunksOf c file).getD (tp.2 - 1) []))))).chunks
          (chunksOf c file).length = some file) := by
  constructor
  · intro draftOf now1 now2 st l hp hd ht hf
    obtain ⟨p, hp2⟩ := Option.isSome_iff_exists.mp hp
    obtain ⟨d, hd2⟩ := Option.isSome_iff_exists.mp hd
    by_cases hhash : hashable p = true
    · by_cases hmem : (st.chunks.lookup p).isSome
      · have h1 : handleParsed draftOf now1 st (JTop.dict l) = st :=
          handleParsed_seen draftOf now1 st _ p hp2 hmem
        rw [h1]
        exact handleParsed_seen draftOf now2 st _ p hp2 hmem
      · have hnew : st.chunks.lookup p = none :=
          Option.not_isSome_iff_eq_none.mp hmem
        have hself :=
          handleParsed_dict_lookup_self draftOf now1 st l p d hp2 hd2 ht hf hhash hnew
        exact handleParsed_seen draftOf now2 _ _ p hp2 (by rw [hself]; rfl)
    · have hhf : hashable p = false := Bool.of_not_eq_true hhash
      have h1 : ∀ nw : Int, handleParsed draftOf nw st (JTop.dict l) = st := by
        intro nw
        simp [handleParsed, getItem, hp2, hd2, hhf]
      rw [h1 now1]
      exact h1 now2
  · intro c name file t0 t1 ts1 ts2 hc hbytes hperm1 hperm2
    have r1 := restored_of_complete c name file t0 hc hbytes ts1 hperm1
    have r2 := restored_of_complete c name file t1 hc hbytes ts2 hperm2
    exact ⟨r1.trans r2.symm, r1⟩

/-- Witness for C3: a duplicate first envelope is a no-op, and the two-chunk
file `[9, 8, 7]` sent as parts `{1, 2}` and received in either order
restores to `[9, 8, 7]`. -/
theorem C3_assembler_insensitive_witness :
    (handleParsed (fun _ => none) 1
        (handleParsed (fun _ => none) 0 (RxState.mk [] none none 0)
          (JTop.dict [("p", JAtom.int 1), ("t", JAtom.int 1), ("f", JAtom.str "a"),
            ("d", JAtom.str "QQ==")]))
        (JTop.dict [("p", JAtom.int 1), ("t", JAtom.int 1), ("f", JAtom.str "a"),
          ("d", JAtom.str "QQ==")])
      = handleParsed (fun _ => none) 0 (RxState.mk [] none none 0)
        (JTop.dict [("p", JAtom.int 1), ("t", JAtom.int 1), ("f", JAtom.str "a"),
          ("d", JAtom.str "QQ==")])) ∧
    restoredBytes (runParsed (fun _ => none) (RxState.mk [] none none 7)
        (([((5 : Int), 2), ((6 : Int), 1)] : List (Int × Nat)).map
          (fun tp => (tp.1, mkEnvelope "f.bin" (totalPartsFor 2 ([9, 8, 7] : List Nat).length)
            tp.2 ((chunksOf 2 [9, 8, 7]).getD (tp.2 - 1) []))))).chunks
        (chunksOf 2 [9, 8, 7]).length = some [9, 8, 7] := by
  have hlen : (chunksOf 2 [9, 8, 7]).length = 2 := by
    rw [chunksOf_length 2 [9, 8, 7] (by omega)]
    decide
  have hperm1 : (([((0 : Int), 1), ((1 : Int), 2)] : List (Int × Nat)).map
      Prod.snd).Perm (List.range' 1 (chunksOf 2 [9, 8, 7]).length) := by
    rw [hlen]
    decide
  have hperm2 : (([((5 : Int), 2), ((6 : Int), 1)] : List (Int × Nat)).map
      Prod.snd).Perm (List.range' 1 (chunksOf 2 [9, 8, 7]).length) := by
    rw [hlen]
    decide
  refine ⟨C3_assembler_insensitive.1 (fun _ => none) 0 1 (RxState.mk [] none none 0)
      [("p", JAtom.int 1), ("t", JAtom.int 1), ("f", JAtom.str "a"),
        ("d", JAtom.str "QQ==")] rfl rfl rfl rfl, ?_⟩
  have h := (C3_assembler_insensitive.2 2 "f.bin" [9, 8, 7] 7 7
    [((5 : Int), 2), ((6 : Int), 1)] [((5 : Int), 2), ((6 : Int), 1)]
    (by omega) (by decide) hperm2 hperm2).2
  exact h

/-- A `filterMap` that keeps every element unchanged is the identity. -/
theorem filterMap_some_id {α : Type} (f : α → Option α) :
    ∀ l : List α, (∀ a ∈ l, f a = some a) → l.filterMap f = l := by
  intro l
  induction l with
  | nil => intro _; rfl
  | cons a rest ih =>
    intro h
    rw [List.filterMap_cons, h a (List.mem_cons_self _ _),
      ih (fun b hb => h b (List.mem_cons_of_mem _ hb))]

/-- The part numbers the sender renders are the chunk numbers passing the
remediation filter, in ascending order. -/
theorem renderedParts_eq (r : Option (List Int)) (c : Nat) (file : List Nat) :
    renderedParts r c file
      = (List.range' 1 (chunksOf c file).length).filter
          (fun p => !skipsPart r (Int.ofNat p)) := by
  rw [renderedParts, generation_envelopes, envelopeLoop_eq, List.filterMap_map]
  apply filterMap_some_id
  intro p _
  simp only [Function.comp_apply, getItem_mkEnvelope_p]
  rfl

/-- C9: with a non-empty remediation set `M`, the sender renders an envelope
for a part exactly when the part lies in `1..totalParts` and in `M`; for
`M = {1..totalParts} − keys(chunks)` of a prior session, every part of the
range is either replayed or already held, and — when the prior keys are part
keys of the range — the union of the replayed parts with the prior key set
is exactly the full range `1..totalParts`. -/
theorem C9_remediation_closure (c n : Nat) (file : List Nat)
    (chunks : List (JAtom × JAtom)) (hc : 0 < c)
    (hn : n = (chunksOf c file).length) :
    (∀ M : List Int, M ≠ [] → ∀ p : Nat,
      (p ∈ renderedParts (some M) c file ↔ (1 ≤ p ∧ p ≤ n ∧ Int.ofNat p ∈ M))) ∧
    (∀ p : Nat, 1 ≤ p → p ≤ n →
      (p ∈ renderedParts (some ((missingParts n chunks).map Int.ofNat)) c file ∨
        (chunks.lookup (JAtom.int (Int.ofNat p))).isSome)) ∧
    (missingParts n chunks ≠ [] →
      (∀ kv ∈ chunks, ∃ j : Nat, kv.1 = JAtom.int (Int.ofNat j) ∧ 1 ≤ j ∧ j ≤ n) →
      ∀ p : Nat,
        ((p ∈ renderedParts (some ((missingParts n chunks).map Int.ofNat)) c file ∨
            (chunks.lookup (JAtom.int (Int.ofNat p))).isSome)
          ↔ (1 ≤ p ∧ p ≤ n))) := by
  have hpart1 : ∀ M : List Int, M ≠ [] → ∀ p : Nat,
      (p ∈ renderedParts (some M) c file ↔ (1 ≤ p ∧ p ≤ n ∧ Int.ofNat p ∈ M)) := by
    intro M hM p
    have hie : M.isEmpty = false := by
      cases M with
      | nil => exact absurd rfl hM
      | cons a l => rfl
    rw [renderedParts_eq, List.mem_filter, List.mem_range'_1, ← hn]
    constructor
    · rintro ⟨⟨h1, h2⟩, h3⟩
      simp only [skipsPart, hie, Bool.not_false, Bool.true_and, Bool.not_not] at h3
      exact ⟨h1, by omega, by simpa using h3⟩
    · rintro ⟨h1, h2, h3⟩
      refine ⟨⟨h1, by omega⟩, ?_⟩
      simp only [skipsPart, hie, Bool.not_false, Bool.true_and, Bool.not_not]
      simpa using h3
  have hpart2 : ∀ p : Nat, 1 ≤ p → p ≤ n →
      (p ∈ renderedParts (some ((missingParts n chunks).map Int.ofNat)) c file ∨
        (chunks.lookup (JAtom.int (Int.ofNat p))).isSome) := by
    intro p h1 h2
    by_cases hs : (chunks.lookup (JAtom.int (Int.ofNat p))).isSome
    · exact Or.inr hs
    · left
      have hnone : (chunks.lookup (JAtom.int (Int.ofNat p))).isNone := by
        rw [Option.isNone_iff_eq_none]
        exact Option.not_isSome_iff_eq_none.mp hs
      have hmiss : p ∈ missingParts n chunks :=
        (missingParts_mem n chunks p).mpr ⟨h1, h2, hnone⟩
      have hMne : (missingParts n chunks).map Int.ofNat ≠ [] := by
        intro hcontra
        rw [List.map_eq_nil_iff] at hcontra
        rw [hcontra] at hmiss
        exact absurd hmiss (List.not_mem_nil p)
      exact (hpart1 _ hMne p).mpr ⟨h1, h2, List.mem_map_of_mem Int.ofNat hmiss⟩
  refine ⟨hpart1, hpart2, ?_⟩
  intro hne hkeys p
  have hMne : (missingParts n chunks).map Int.ofNat ≠ [] := by
    intro hcontra
    rw [List.map_eq_nil_iff] at hcontra
    exact hne hcontra
  constructor
  · rintro (hr | hs)
    · have := (hpart1 _ hMne p).mp hr
      exact ⟨this.1, this.2.1⟩
    · obtain ⟨v, hv⟩ := Option.isSome_iff_exists.mp hs
      obtain ⟨j, hj1, hj2, hj3⟩ := hkeys _ (lookup_mem chunks _ v hv)
      have hpj : Int.ofNat p = Int.ofNat j := by
        have hj1b : JAtom.int (Int.ofNat p) = JAtom.int (Int.ofNat j) := hj1
        injection hj1b
      have : p = j := Int.ofNat.inj hpj
      subst this
      exact ⟨hj2, hj3⟩
  · rintro ⟨h1, h2⟩
    exact hpart2 p h1 h2

/-- Witness for C9: the three-byte file at chunk size 2 has parts `{1, 2}`;
when part 2 was received, the manifest's missing list is `[1]` and replaying
with that selector renders exactly part 1. -/
theorem C9_remediation_closure_witness :
    1 ∈ renderedParts (some [(1 : Int)]) 2 [1, 2, 3] :=
  ((C9_remediation_closure 2 2 [1, 2, 3] [(JAtom.int 2, JAtom.str "QQ==")]
      (by omega)
      (by
        rw [chunksOf_length 2 [1, 2, 3] (by omega)]
        decide)).1
    [(1 : Int)] (by decide) 1).mpr ⟨by decide, by decide, by decide⟩
